import Mathlib

/-!
Shallow embedding of `src/drop_script.py`, a periodic diagnostic-snapshot
collector: it launches a table of external commands as subprocesses, joins
them with a fixed timeout, merges their stdout into a mapping keyed by
command label, and each round serializes that mapping as indented JSON,
compresses it and writes one snapshot file.

Effects (subprocess launch/join/kill, mkdir, file write, sleep) are made
explicit as an event trace; the filesystem is a list of existing paths;
the behaviour of each external command on the host is an environment
parameter (the commands themselves are external collaborators, out of
scope per the spec).
-/

namespace DropScript

/-- Parsed CLI arguments, mirroring `getParser` in the source:
`--time_interval` (Int, default 30), `--num_runs` (Int, default 1),
`--output_dir` (default "/var/xr/disk1/envSnaps"), `--leader`
(default ""). -/
structure Args where
  time_interval : Int
  num_runs : Int
  output_dir : String
  leader : String
deriving Repr, DecidableEq

/-- The `getParser` defaults. -/
def defaultArgs : Args :=
  { time_interval := 30, num_runs := 1, output_dir := "/var/xr/disk1/envSnaps", leader := "" }

/-- How the host system behaves for one command invocation: `Popen` raises
`FileNotFoundError` (binary missing), or the process can be joined and
either exceeds the 180 s timeout or completes with a stdout and a stderr
text. -/
inductive CmdBehavior where
  | notFound : CmdBehavior
  | timesOut : CmdBehavior
  | completes (stdout stderr : String) : CmdBehavior
deriving Repr, DecidableEq

/-- Result attached to a successfully launched process handle: either the
join times out, or it completes with stdout/stderr. -/
inductive ProcResult where
  | timesOut : ProcResult
  | completes (stdout stderr : String) : ProcResult
deriving Repr, DecidableEq

/-- Observable effects of the script, in order of occurrence. -/
inductive Event where
  | launch (label : String) (argv : List String) : Event
  | launchFailed (label : String) : Event
  | join (label : String) (timeoutSecs : Nat) : Event
  | kill (label : String) : Event
  | mkdirEvt (dir : String) : Event
  | write (path : String) (content : String) : Event
  | sleep (secs : Int) : Event
deriving Repr, DecidableEq

/-- The fixed join timeout: `proc.communicate(timeout=180)`. -/
def commandTimeout : Nat := 180

/-- Insertion-ordered string-keyed mapping, modelling a Python `dict`
whose keys and values are strings. -/
abbrev StrMap := List (String × String)

/-- Dict assignment `m[k] = v` on a Python dict: overwrite in place if the key exists,
else append. -/
def mapInsert (m : StrMap) (k v : String) : StrMap :=
  match m with
  | [] => [(k, v)]
  | p :: rest => if p.1 = k then (k, v) :: rest else p :: mapInsert rest k v

/-- Dict update `m.update(m2)` on Python dicts: fold the entries of `m2` into `m` in
order, overwriting existing keys. -/
def mapUpdate (m : StrMap) : StrMap → StrMap
  | [] => m
  | (k, v) :: rest => mapUpdate (mapInsert m k v) rest

/-- Dict lookup `m[k]`, `none` modelling a `KeyError`. -/
def mapGet? (m : StrMap) (k : String) : Option String :=
  match m with
  | [] => none
  | p :: rest => if p.1 = k then some p.2 else mapGet? rest k

/-- First `for` loop of `runCommands`: launch every command of the table,
storing a handle per command that did launch; a `FileNotFoundError` is
logged (`launchFailed`) and the command skipped.  The handle records the
future join behaviour of the process as given by the environment. -/
def launchAll (env : String → List String → CmdBehavior) :
    List (String × List String) → List (String × ProcResult) × List Event
  | [] => ([], [])
  | (cmd, argv) :: rest =>
    match env cmd argv with
    | .notFound =>
      let (hs, tr) := launchAll env rest
      (hs, .launchFailed cmd :: tr)
    | .timesOut =>
      let (hs, tr) := launchAll env rest
      ((cmd, .timesOut) :: hs, .launch cmd argv :: tr)
    | .completes out err =>
      let (hs, tr) := launchAll env rest
      ((cmd, .completes out err) :: hs, .launch cmd argv :: tr)

/-- Second `for` loop of `runCommands`: join each handle in order with the
fixed timeout, storing the stdout text under the command label; on a
timeout the process is killed and a `TimeoutError` carrying the handle
label is raised (modelled as `Except.error label`), aborting the loop. -/
def joinAll : List (String × ProcResult) → StrMap →
    Except String StrMap × List Event
  | [], acc => (.ok acc, [])
  | (cmd, .timesOut) :: _, _ =>
    (.error cmd, [.join cmd commandTimeout, .kill cmd])
  | (cmd, .completes out _err) :: rest, acc =>
    let (res, tr) := joinAll rest (mapInsert acc cmd out)
    (res, .join cmd commandTimeout :: tr)

/-- Source `runCommands(cmdTable)`: launch all commands, then join them in order;
returns the stdout mapping, or the raised `TimeoutError` label. -/
def runCommands (env : String → List String → CmdBehavior)
    (cmdTable : List (String × List String)) :
    Except String StrMap × List Event :=
  let (handles, launchTr) := launchAll env cmdTable
  let (res, joinTr) := joinAll handles []
  (res, launchTr ++ joinTr)

/-- Gregorian civil date (year, month, day) from a count of days since
1970-01-01, the standard era-based conversion used by C and Python time
libraries.  Models `datetime.datetime.fromtimestamp` at day granularity
(the host timezone is modelled as UTC). -/
def civilFromDays (z0 : Int) : Int × Nat × Nat :=
  let z := z0 + 719468
  let era := z.fdiv 146097
  let doe := (z - era * 146097).toNat
  let yoe := (doe - doe / 1460 + doe / 36524 - doe / 146096) / 365
  let y := (yoe : Int) + era * 400
  let doy := doe - (365 * yoe + yoe / 4 - yoe / 100)
  let mp := (5 * doy + 2) / 153
  let d := doy - (153 * mp + 2) / 5 + 1
  let m := if mp < 10 then mp + 3 else mp - 9
  (if m ≤ 2 then y + 1 else y, m, d)

/-- Zero-padded two-digit decimal field, as produced by `strftime`. -/
def pad2 (n : Nat) : String :=
  if n < 10 then "0" ++ toString n else toString n

/-- Model of `datetime.datetime.fromtimestamp(ts).strftime("%y%m%d-%H%M%S")`:
two-digit year, month, day, then a dash, then hours, minutes, seconds,
all zero-padded, from an epoch-seconds value (timezone modelled as UTC). -/
def formatTimestamp (ts : Int) : String :=
  let days := ts.fdiv 86400
  let sod := (ts - days * 86400).toNat
  let ymd := civilFromDays days
  pad2 (ymd.1 % 100).toNat ++ pad2 ymd.2.1 ++ pad2 ymd.2.2 ++ "-" ++
    pad2 (sod / 3600) ++ pad2 (sod % 3600 / 60) ++ pad2 (sod % 60)

/-- Python whitespace, as stripped by `str.strip()` and `int()`. -/
def isPySpace (c : Char) : Bool :=
  c = ' ' || c = '\t' || c = '\n' || c = '\x0d' || c = '\x0b' || c = '\x0c'

/-- Drop leading and trailing whitespace from a character list. -/
def trimChars (l : List Char) : List Char :=
  ((l.dropWhile isPySpace).reverse.dropWhile isPySpace).reverse

/-- Python `s.strip()` with no argument: remove surrounding whitespace. -/
def pyStrip (s : String) : String :=
  (trimChars s.toList).asString

/-- Decimal digit value of a character, if it is one. -/
def digit? (c : Char) : Option Nat :=
  if '0' ≤ c && c ≤ '9' then some (c.toNat - 48) else none

/-- Accumulate a decimal number over a digit list; `none` on any
non-digit. -/
def parseDigitsAux : List Char → Nat → Option Nat
  | [], acc => some acc
  | c :: rest, acc =>
    match digit? c with
    | some d => parseDigitsAux rest (acc * 10 + d)
    | none => none

/-- A non-empty all-digit list as a number. -/
def parseDigits : List Char → Option Nat
  | [] => none
  | l => parseDigitsAux l 0

/-- Python `int(s)` on a string: surrounding whitespace is ignored, the
rest must be an optionally signed decimal literal; `none` models the
`ValueError` raised otherwise. -/
def parsePyInt (s : String) : Option Int :=
  match trimChars s.toList with
  | '-' :: ds => (parseDigits ds).map (fun n => -(n : Int))
  | '+' :: ds => (parseDigits ds).map (fun n => (n : Int))
  | ds => (parseDigits ds).map (fun n => (n : Int))

/-- Filesystem state: the list of paths that exist.  `os.mkdir` appends
the directory path. -/
structure FS where
  paths : List String
deriving Repr, DecidableEq

/-- Lines 25-26 of the source: `if not os.path.exists(snapshot_dir):
os.mkdir(snapshot_dir)` — create the output directory when absent,
leave the state untouched when present. -/
def ensureDir (dir : String) (fs : FS) : FS × List Event :=
  if fs.paths.contains dir then (fs, [])
  else (⟨fs.paths ++ [dir]⟩, [.mkdirEvt dir])

/-- The filename computation of `getOutputfile`: a path is produced only
when the `timestamp` and `etcHostname` keys are present (else `KeyError`)
and the timestamp text parses (else `ValueError`); then it is
`output_dir + "/" + leader + hostname.strip() + "_cmds_" + timestamp + ".json.xz"`
with the timestamp formatted from `int(commandOutput["timestamp"])`. -/
def buildPath (args : Args) (commandOutput : StrMap) : Option String :=
  (mapGet? commandOutput "timestamp").bind (fun tsText =>
    (mapGet? commandOutput "etcHostname").bind (fun host =>
      (parsePyInt tsText).map (fun snapTime =>
        let timestamp := formatTimestamp snapTime
        let filename_leader := args.leader ++ pyStrip host
        let out_fname := filename_leader ++ "_cmds_" ++ timestamp ++ ".json.xz"
        args.output_dir ++ "/" ++ out_fname)))

/-- Source `getOutputfile(args, commandOutput)`: ensure the output directory
exists (`os.mkdir` when missing — this side effect happens first), then
build the snapshot path from the captured hostname and sampled
timestamp. -/
def getOutputfile (args : Args) (commandOutput : StrMap) (fs : FS) :
    Option String × FS × List Event :=
  (buildPath args commandOutput, ensureDir args.output_dir fs)

/-- Lowercase hexadecimal digit character for `n < 16`. -/
def hexDigit (n : Nat) : Char :=
  if n < 10 then Char.ofNat (48 + n) else Char.ofNat (87 + n)

/-- Four lowercase hex digits of `n < 0x10000`, most significant first,
as in a JSON `\uXXXX` escape. -/
def hex4 (n : Nat) : List Char :=
  [hexDigit (n / 4096 % 16), hexDigit (n / 256 % 16), hexDigit (n / 16 % 16), hexDigit (n % 16)]

/-- JSON string escaping of one character as done by `json.dump` with its
default `ensure_ascii=True`: named escapes for quote, backslash and the
usual control characters, printable ASCII verbatim, and everything else
as `\uXXXX` (a surrogate pair for characters beyond the basic plane). -/
def escChar (c : Char) : List Char :=
  if c = '"' then ['\\', '"']
  else if c = '\\' then ['\\', '\\']
  else if c = '\x08' then ['\\', 'b']
  else if c = '\x0c' then ['\\', 'f']
  else if c = '\n' then ['\\', 'n']
  else if c = '\x0d' then ['\\', 'r']
  else if c = '\t' then ['\\', 't']
  else if 0x20 ≤ c.toNat && c.toNat ≤ 0x7e then [c]
  else if c.toNat < 0x10000 then '\\' :: 'u' :: hex4 c.toNat
  else
    ('\\' :: 'u' :: hex4 (0xd800 + (c.toNat - 0x10000) / 0x400)) ++
      ('\\' :: 'u' :: hex4 (0xdc00 + (c.toNat - 0x10000) % 0x400))

/-- JSON escaping of a whole string body. -/
def escStr (s : List Char) : List Char :=
  s.flatMap escChar

/-- One line of the indented object: four spaces, the quoted key, the
`": "` separator, the quoted value (`json.dump(..., indent=4)` uses the
`(",", ": ")` separators). -/
def dumpEntryChars (kv : String × String) : List Char :=
  ' ' :: ' ' :: ' ' :: ' ' :: '"' :: (escStr kv.1.toList ++
    '"' :: ':' :: ' ' :: '"' :: (escStr kv.2.toList ++ ['"']))

/-- The entry lines joined by `",\n"`. -/
def joinEntries : StrMap → List Char
  | [] => []
  | [kv] => dumpEntryChars kv
  | kv :: rest => dumpEntryChars kv ++ ',' :: '\n' :: joinEntries rest

/-- Character stream of `json.dumps(m, indent=4)` for a flat
string-to-string mapping: `\x7b\x7d` when empty, otherwise the open
brace, newline, the indented entry lines, newline, close brace. -/
def dumpChars : StrMap → List Char
  | [] => ['\x7b', '\x7d']
  | kv :: rest => '\x7b' :: '\n' :: (joinEntries (kv :: rest) ++ ['\n', '\x7d'])

/-- Text of `json.dumps(m, indent=4)` as a string. -/
def jsonDump (m : StrMap) : String :=
  (dumpChars m).asString

/-- Numeric value of a lowercase hex digit character. -/
def ofHexDigit (c : Char) : Option Nat :=
  if '0' ≤ c && c ≤ '9' then some (c.toNat - 48)
  else if 'a' ≤ c && c ≤ 'f' then some (c.toNat - 87)
  else none

/-- Value of four hex digit characters, most significant first. -/
def hexVal4 (a b c d : Char) : Option Nat :=
  match ofHexDigit a, ofHexDigit b, ofHexDigit c, ofHexDigit d with
  | some x, some y, some z, some w => some (4096 * x + 256 * y + 16 * z + w)
  | _, _, _, _ => none

/-- Read the trailing `\uXXXX` escape of a surrogate pair: `n` is the
value of the leading (high) surrogate. -/
def parseLowSurr (n : Nat) (l : List Char) : Option (Char × List Char) :=
  match l with
  | b :: u :: g1 :: g2 :: g3 :: g4 :: rest =>
    if b = '\\' && u = 'u' then
      (hexVal4 g1 g2 g3 g4).bind (fun n2 =>
        if 0xdc00 ≤ n2 && n2 ≤ 0xdfff then
          some (Char.ofNat (0x10000 + (n - 0xd800) * 0x400 + (n2 - 0xdc00)), rest)
        else none)
    else none
  | _ => none

/-- Read the body of a `\uXXXX` escape (the four hex digits onward),
joining a surrogate pair into one character when the value is a high
surrogate. -/
def parseUEsc (l : List Char) : Option (Char × List Char) :=
  match l with
  | g1 :: g2 :: g3 :: g4 :: rest =>
    (hexVal4 g1 g2 g3 g4).bind (fun n =>
      if n < 0xd800 || 0xdfff < n then some (Char.ofNat n, rest)
      else if n ≤ 0xdbff then parseLowSurr n rest
      else none)
  | _ => none

/-- Decode one escape sequence (the part after the backslash). -/
def unescape1 : List Char → Option (Char × List Char)
  | [] => none
  | e :: rest =>
    if e = 'u' then parseUEsc rest
    else if e = '"' then some ('"', rest)
    else if e = '\\' then some ('\\', rest)
    else if e = 'b' then some ('\x08', rest)
    else if e = 'f' then some ('\x0c', rest)
    else if e = 'n' then some ('\n', rest)
    else if e = 'r' then some ('\x0d', rest)
    else if e = 't' then some ('\t', rest)
    else none

theorem parseLowSurr_length (n : Nat) (l : List Char) (c : Char) (r : List Char)
    (h : parseLowSurr n l = some (c, r)) : r.length + 6 = l.length := by
  match l with
  | [] => simp [parseLowSurr] at h
  | [a] => simp [parseLowSurr] at h
  | [a, b] => simp [parseLowSurr] at h
  | [a, b, c1] => simp [parseLowSurr] at h
  | [a, b, c1, d] => simp [parseLowSurr] at h
  | [a, b, c1, d, e] => simp [parseLowSurr] at h
  | b :: u :: g1 :: g2 :: g3 :: g4 :: rest =>
    simp only [parseLowSurr] at h
    split at h
    · rcases hv : hexVal4 g1 g2 g3 g4 with _ | n2 <;> rw [hv] at h
      · exact absurd h (by simp)
      · simp only [Option.some_bind] at h
        split at h
        · simp only [Option.some.injEq, Prod.mk.injEq] at h
          simp [← h.2]
        · exact absurd h (by simp)
    · exact absurd h (by simp)

theorem parseUEsc_length (l : List Char) (c : Char) (r : List Char)
    (h : parseUEsc l = some (c, r)) : r.length + 4 ≤ l.length := by
  match l with
  | [] => simp [parseUEsc] at h
  | [a] => simp [parseUEsc] at h
  | [a, b] => simp [parseUEsc] at h
  | [a, b, c1] => simp [parseUEsc] at h
  | g1 :: g2 :: g3 :: g4 :: rest =>
    simp only [parseUEsc] at h
    rcases hv : hexVal4 g1 g2 g3 g4 with _ | n <;> rw [hv] at h
    · exact absurd h (by simp)
    · simp only [Option.some_bind] at h
      split at h
      · simp only [Option.some.injEq, Prod.mk.injEq] at h
        simp [← h.2]
      · split at h
        · have := parseLowSurr_length _ _ _ _ h
          simp only [List.length_cons]
          omega
        · exact absurd h (by simp)

theorem unescape1_length (l : List Char) (c : Char) (r : List Char)
    (h : unescape1 l = some (c, r)) : r.length < l.length := by
  match l with
  | [] => simp [unescape1] at h
  | e :: rest =>
    simp only [unescape1] at h
    split_ifs at h
    case pos =>
      have hx := parseUEsc_length _ _ _ h
      simp only [List.length_cons]
      omega
    all_goals simp only [Option.some.injEq, Prod.mk.injEq] at h
    all_goals simp [← h.2]

/-- Read a JSON string body up to its closing quote, undoing `escChar`:
returns the decoded characters and the input remaining after the quote. -/
def parseJChars (l : List Char) : Option (List Char × List Char) :=
  match l with
  | [] => none
  | c :: rest =>
    if c = '"' then some ([], rest)
    else if c = '\\' then
      match h : unescape1 rest with
      | none => none
      | some (d, rest2) => (parseJChars rest2).map (fun p => (d :: p.1, p.2))
    else (parseJChars rest).map (fun p => (c :: p.1, p.2))
termination_by l.length
decreasing_by
  · have := unescape1_length _ _ _ h
    simp only [List.length_cons]
    omega
  · simp

/-- Unfolding equation for `parseJChars` with a plain (non-dependent)
match on the escape decoder. -/
theorem parseJChars_cons (c : Char) (rest : List Char) :
    parseJChars (c :: rest) =
      if c = '"' then some ([], rest)
      else if c = '\\' then
        match unescape1 rest with
        | none => none
        | some (d, rest2) => (parseJChars rest2).map (fun p => (d :: p.1, p.2))
      else (parseJChars rest).map (fun p => (c :: p.1, p.2)) := by
  rw [parseJChars]
  congr 1
  congr 1
  rcases h : unescape1 rest with _ | ⟨d, rest2⟩ <;> rfl

/-- A successful string-body read consumes at least the closing quote. -/
theorem parseJChars_length (l : List Char) :
    ∀ s r, parseJChars l = some (s, r) → r.length < l.length := by
  induction l using parseJChars.induct with
  | case1 => intro s r h; rw [parseJChars] at h; exact absurd h (by simp)
  | case2 rest =>
    intro s r h
    rw [parseJChars_cons] at h
    simp at h
    simp [← h.2]
  | case3 rest hu _ =>
    intro s r h
    rw [parseJChars_cons] at h
    simp [hu] at h
  | case4 rest d rest2 hu _ ih =>
    intro s r h
    rw [parseJChars_cons] at h
    simp [hu] at h
    obtain ⟨a, ha, _⟩ := h
    have h1 := ih a r ha
    have h2 := unescape1_length _ _ _ hu
    simp only [List.length_cons]
    omega
  | case5 e rest h1 h2 ih =>
    intro s r h
    rw [parseJChars_cons] at h
    simp [h1, h2] at h
    obtain ⟨a, ha, _⟩ := h
    have := ih a r ha
    simp only [List.length_cons]
    omega

/-- Read one `    "key": "value"` line of the indented object; returns
the decoded key, value and remaining input. -/
def parseEntry1 (l : List Char) : Option (String × String × List Char) :=
  match l with
  | s1 :: s2 :: s3 :: s4 :: q :: r1 =>
    if s1 = ' ' && s2 = ' ' && s3 = ' ' && s4 = ' ' && q = '"' then
      (parseJChars r1).bind (fun p =>
        match p.2 with
        | c1 :: c2 :: c3 :: r3 =>
          if c1 = ':' && c2 = ' ' && c3 = '"' then
            (parseJChars r3).bind (fun p2 => some (p.1.asString, p2.1.asString, p2.2))
          else none
        | _ => none)
    else none
  | _ => none

/-- A successful entry read consumes input. -/
theorem parseEntry1_length (l : List Char) (k v : String) (r : List Char)
    (h : parseEntry1 l = some (k, v, r)) : r.length + 8 ≤ l.length := by
  match l with
  | [] => simp [parseEntry1] at h
  | [a] => simp [parseEntry1] at h
  | [a, b] => simp [parseEntry1] at h
  | [a, b, c] => simp [parseEntry1] at h
  | [a, b, c, d] => simp [parseEntry1] at h
  | s1 :: s2 :: s3 :: s4 :: q :: r1 =>
    simp only [parseEntry1] at h
    split at h
    case isFalse => exact absurd h (by simp)
    case isTrue =>
      rcases h1 : parseJChars r1 with _ | ⟨ks, r2⟩ <;> rw [h1] at h
      · exact absurd h (by simp)
      · simp only [Option.some_bind] at h
        have hl1 := parseJChars_length _ _ _ h1
        match r2, hl1 with
        | [], _ => exact absurd h (by simp)
        | [c1], _ => exact absurd h (by simp)
        | [c1, c2], _ => exact absurd h (by simp)
        | c1 :: c2 :: c3 :: r3, hl1 =>
          simp only at h
          split at h
          case isFalse => exact absurd h (by simp)
          case isTrue =>
            rcases h2 : parseJChars r3 with _ | ⟨vs, r4⟩ <;> rw [h2] at h
            · exact absurd h (by simp)
            · have hl2 := parseJChars_length _ _ _ h2
              simp only [Option.some_bind, Option.some.injEq, Prod.mk.injEq] at h
              obtain ⟨_, _, rfl⟩ := h
              simp only [List.length_cons] at *
              omega

/-- Read the sequence of indented entry lines, each followed either by
`",\n"` (more entries) or by `"\n\x7d"` closing the object. -/
def parseEntries (l : List Char) : Option StrMap :=
  match h : parseEntry1 l with
  | none => none
  | some (k, v, r4) =>
    match r4 with
    | c1 :: c2 :: r5 =>
      if c1 = ',' && c2 = '\n' then (parseEntries r5).map (fun rest => (k, v) :: rest)
      else if c1 = '\n' && c2 = '\x7d' && r5.isEmpty then some [(k, v)]
      else none
    | _ => none
termination_by l.length
decreasing_by
  have := parseEntry1_length _ _ _ _ h
  simp only [List.length_cons] at this
  omega

/-- Read back `json.dumps(m, indent=4)` output: the two-character empty
object, or brace, newline, the entry lines. -/
def jsonRead (s : String) : Option StrMap :=
  match s.toList with
  | ['\x7b', '\x7d'] => some []
  | '\x7b' :: '\n' :: rest => parseEntries rest
  | _ => none

/-- Model of the xz/LZMA layer (`lzma.open(..., "wt")` plus the stream
encoder, an external library out of scope per the spec): an invertible
container holding the text after the six magic header bytes of the `.xz`
format. -/
def xzCompress (s : String) : String :=
  ('\xfd' :: '7' :: 'z' :: 'X' :: 'Z' :: '\x00' :: s.toList).asString

/-- Decompression of the modelled container: check and strip the header. -/
def xzDecompress (s : String) : Option String :=
  match s.toList with
  | '\xfd' :: '7' :: 'z' :: 'X' :: 'Z' :: '\x00' :: rest => some rest.asString
  | _ => none

/-- Source `saveJsonXz(cmdOutput, filename)`: serialize the mapping as indented
JSON, compress, and write the file — one write event. -/
def saveJsonXz (cmdOutput : StrMap) (filename : String) : Event :=
  .write filename (xzCompress (jsonDump cmdOutput))

theorem ofHexDigit_hexDigit : ∀ k, k < 16 → ofHexDigit (hexDigit k) = some k := by decide

theorem hexVal4_hex4 (n : Nat) (hn : n < 65536) :
    hexVal4 (hexDigit (n / 4096 % 16)) (hexDigit (n / 256 % 16))
      (hexDigit (n / 16 % 16)) (hexDigit (n % 16)) = some n := by
  unfold hexVal4
  rw [ofHexDigit_hexDigit _ (Nat.mod_lt _ (by norm_num)),
      ofHexDigit_hexDigit _ (Nat.mod_lt _ (by norm_num)),
      ofHexDigit_hexDigit _ (Nat.mod_lt _ (by norm_num)),
      ofHexDigit_hexDigit _ (Nat.mod_lt _ (by norm_num))]
  simp only [Option.some.injEq]
  omega

theorem parseUEsc_hex4 (n : Nat) (t : List Char) (h1 : n < 65536)
    (h2 : n < 0xd800 ∨ 0xdfff < n) :
    parseUEsc (hex4 n ++ t) = some (Char.ofNat n, t) := by
  simp only [hex4, List.cons_append, List.nil_append]
  simp only [parseUEsc]
  rw [hexVal4_hex4 n h1, Option.some_bind]
  rcases h2 with h | h <;> simp [h]

theorem parseUEsc_surr (n : Nat) (t : List Char) (h1 : 0x10000 ≤ n) (h2 : n < 0x110000) :
    parseUEsc (hex4 (0xd800 + (n - 0x10000) / 0x400) ++
      ('\\' :: 'u' :: (hex4 (0xdc00 + (n - 0x10000) % 0x400) ++ t))) =
      some (Char.ofNat n, t) := by
  have hmod : (n - 65536) % 1024 < 1024 := Nat.mod_lt _ (by norm_num)
  have hdiv : (n - 65536) / 1024 ≤ 1023 := by omega
  have hA : ¬(55296 + (n - 65536) / 1024 < 55296) := by omega
  have hB : ¬(57343 < 55296 + (n - 65536) / 1024) := by omega
  have hC : 55296 + (n - 65536) / 1024 ≤ 56319 := by omega
  have hD : 56320 ≤ 56320 + (n - 65536) % 1024 := by omega
  have hE : 56320 + (n - 65536) % 1024 ≤ 57343 := by omega
  simp only [hex4, List.cons_append, List.nil_append]
  simp only [parseUEsc]
  rw [hexVal4_hex4 _ (by omega), Option.some_bind]
  rw [if_neg (by simp [hA, hB])]
  rw [if_pos hC]
  simp only [parseLowSurr]
  rw [if_pos (by simp)]
  rw [hexVal4_hex4 _ (by omega), Option.some_bind]
  rw [if_pos (by simp [hD, hE])]
  have hX : 0x10000 + (0xd800 + (n - 0x10000) / 0x400 - 0xd800) * 0x400 +
      (0xdc00 + (n - 0x10000) % 0x400 - 0xdc00) = n := by omega
  rw [hX]

theorem parseJChars_escChar (c : Char) (t : List Char) :
    parseJChars (escChar c ++ t) = (parseJChars t).map (fun p => (c :: p.1, p.2)) := by
  have hval : c.toNat < 0xd800 ∨ (0xdfff < c.toNat ∧ c.toNat < 0x110000) := c.valid
  unfold escChar
  split_ifs with hq hb h8 hf hn hr ht hpr hlt
  · subst hq
    simp only [List.cons_append, List.nil_append]
    rw [parseJChars_cons, if_neg (by decide), if_pos rfl]
    simp [unescape1]
  · subst hb
    simp only [List.cons_append, List.nil_append]
    rw [parseJChars_cons, if_neg (by decide), if_pos rfl]
    simp [unescape1]
  · subst h8
    simp only [List.cons_append, List.nil_append]
    rw [parseJChars_cons, if_neg (by decide), if_pos rfl]
    simp [unescape1]
  · subst hf
    simp only [List.cons_append, List.nil_append]
    rw [parseJChars_cons, if_neg (by decide), if_pos rfl]
    simp [unescape1]
  · subst hn
    simp only [List.cons_append, List.nil_append]
    rw [parseJChars_cons, if_neg (by decide), if_pos rfl]
    simp [unescape1]
  · subst hr
    simp only [List.cons_append, List.nil_append]
    rw [parseJChars_cons, if_neg (by decide), if_pos rfl]
    simp [unescape1]
  · subst ht
    simp only [List.cons_append, List.nil_append]
    rw [parseJChars_cons, if_neg (by decide), if_pos rfl]
    simp [unescape1]
  · simp only [List.cons_append, List.nil_append]
    rw [parseJChars_cons, if_neg hq, if_neg hb]
  · have hns : c.toNat < 0xd800 ∨ 0xdfff < c.toNat := by
      rcases hval with h | h
      · exact Or.inl h
      · exact Or.inr h.1
    simp only [List.cons_append, List.nil_append]
    rw [parseJChars_cons, if_neg (by decide), if_pos rfl]
    have hu : unescape1 ('u' :: (hex4 c.toNat ++ t)) = some (c, t) := by
      simp only [unescape1, if_true]
      rw [parseUEsc_hex4 _ _ hlt hns, Char.ofNat_toNat]
    rw [hu]
  · have hge : 0x10000 ≤ c.toNat := by omega
    have hlt2 : c.toNat < 0x110000 := by
      rcases hval with h | h
      · omega
      · exact h.2
    simp only [List.cons_append, List.nil_append, List.append_assoc]
    rw [parseJChars_cons, if_neg (by decide), if_pos rfl]
    have hu : unescape1 ('u' :: (hex4 (0xd800 + (c.toNat - 0x10000) / 0x400) ++
        ('\\' :: 'u' :: (hex4 (0xdc00 + (c.toNat - 0x10000) % 0x400) ++ t)))) = some (c, t) := by
      simp only [unescape1, if_true]
      rw [parseUEsc_surr _ _ hge hlt2, Char.ofNat_toNat]
    rw [hu]

theorem parseJChars_escStr (s : List Char) (t : List Char) :
    parseJChars (escStr s ++ '"' :: t) = some (s, t) := by
  induction s with
  | nil =>
    simp only [escStr, List.flatMap_nil, List.nil_append]
    rw [parseJChars_cons, if_pos rfl]
  | cons c s ih =>
    simp only [escStr, List.flatMap_cons, List.append_assoc]
    rw [parseJChars_escChar]
    simp only [escStr] at ih
    rw [ih]
    rfl

theorem asString_toList (s : String) : s.toList.asString = s := by
  cases s; rfl

theorem parseEntry1_dump (k v : String) (t : List Char) :
    parseEntry1 (dumpEntryChars (k, v) ++ t) = some (k, v, t) := by
  simp only [dumpEntryChars, List.cons_append, List.append_assoc, List.nil_append]
  simp only [parseEntry1]
  rw [if_pos (by simp)]
  rw [parseJChars_escStr, Option.some_bind]
  simp only
  rw [if_pos (by simp)]
  rw [parseJChars_escStr, Option.some_bind]
  rw [asString_toList, asString_toList]

theorem parseEntries_some (l : List Char) (k v : String) (c1 c2 : Char) (r5 : List Char)
    (h : parseEntry1 l = some (k, v, c1 :: c2 :: r5)) :
    parseEntries l =
      if c1 = ',' && c2 = '\n' then (parseEntries r5).map (fun rest => (k, v) :: rest)
      else if c1 = '\n' && c2 = '\x7d' && r5.isEmpty then some [(k, v)] else none := by
  rw [parseEntries]
  split
  case _ heq => rw [h] at heq; cases heq
  case _ k2 v2 r4 heq =>
    rw [h] at heq
    injection heq with heq2
    injection heq2 with hk heq3
    injection heq3 with hv hr
    subst hk; subst hv; subst hr
    rfl

theorem parseEntries_joinEntries (m : StrMap) (hm : m ≠ []) :
    parseEntries (joinEntries m ++ ['\n', '\x7d']) = some m := by
  induction m with
  | nil => exact absurd rfl hm
  | cons kv rest ih =>
    match rest with
    | [] =>
      simp only [joinEntries]
      rw [parseEntries_some _ kv.1 kv.2 '\n' '\x7d' []
        (by rw [show dumpEntryChars kv ++ ['\n', '\x7d'] =
              dumpEntryChars (kv.1, kv.2) ++ ['\n', '\x7d'] from rfl,
            parseEntry1_dump])]
      rw [if_neg (by decide), if_pos (by decide)]
    | kv2 :: rest2 =>
      simp only [joinEntries, List.append_assoc, List.cons_append]
      rw [parseEntries_some _ kv.1 kv.2 ',' '\n' (joinEntries (kv2 :: rest2) ++ ['\n', '\x7d'])
        (by rw [show dumpEntryChars kv ++ (',' :: '\n' :: (joinEntries (kv2 :: rest2) ++ ['\n', '\x7d'])) =
              dumpEntryChars (kv.1, kv.2) ++ (',' :: '\n' :: (joinEntries (kv2 :: rest2) ++ ['\n', '\x7d'])) from rfl,
            parseEntry1_dump])]
      rw [if_pos (by decide)]
      rw [ih (by simp)]
      rfl

theorem jsonRead_jsonDump (m : StrMap) : jsonRead (jsonDump m) = some m := by
  match m with
  | [] => rfl
  | kv :: rest =>
    show jsonRead ((dumpChars (kv :: rest)).asString) = some (kv :: rest)
    simp only [dumpChars]
    show parseEntries (joinEntries (kv :: rest) ++ ['\n', '\x7d']) = some (kv :: rest)
    exact parseEntries_joinEntries _ (by simp)

theorem xzDecompress_xzCompress (s : String) : xzDecompress (xzCompress s) = some s := by
  cases s; rfl

/-- Dict assignment `table[k] = v` on the Python command-table dicts: overwrite in place
when the key exists, else append. -/
def cmdInsert (t : List (String × List String)) (k : String) (v : List String) :
    List (String × List String) :=
  match t with
  | [] => [(k, v)]
  | p :: rest => if p.1 = k then (k, v) :: rest else p :: cmdInsert rest k v

/-- The literal entries of `runOnceCmdTable` before the construction
loops run. -/
def baseRunOnceCmdTable : List (String × List String) :=
  [("showVersion", ["show_version"]),
   ("showIntf", ["show_interface", "-a"]),
   ("showInv", ["show_inventory", "-e"]),
   ("etcHostname", ["cat", "/etc/hostname"]),
   ("showNpuSlice", ["show_slicemgr", "-I", "0xff", "-n", "A"])]

/-- The literal entries of `loopCmdTable` before the construction loops
run. -/
def baseLoopCmdTable : List (String × List String) :=
  [("timestamp", ["date", "+%s"]),
   ("showPolMapInt", ["qos_ma_show_stats", "-i", "Bundle-Ether21", "-p", "0x1", "-q", "0x2"])]

/-- The twelve bundle-member port names, TenGigE0_11_0_ then port and breakout. -/
def bundlemembers : List String :=
  ["2", "3", "4"].flatMap (fun m_port =>
    ["0", "1", "2", "3"].map (fun m_breakout =>
      "TenGigE0_11_0_" ++ m_port ++ "_" ++ m_breakout))

/-- The `voq_ingress_stats` argv for one bundle member. -/
def voqIngressStats (member : String) : List String :=
  ["ofa_npu_stats_show", "-v", "a", "-i", "0x10", "-n", "0", "-t", "s", "-p", member,
   "-s", "0x0", "-d", "0x0", "-T", "0x0", "-P", "0xffffffff", "-c", "0xff"]

/-- The `clrNpuCmd` argv for one (card, NPU) pair. -/
def clrNpuCmd (card npu : Nat) : List String :=
  ["npd_npu_driver_clear", "-c", "s", "-i", "0x" ++ toString npu, "-n", toString (256 * card)]

/-- The `npuStats` argv for one (card, NPU) pair. -/
def npuStats (card npu : Nat) : List String :=
  ["ofa_npu_stats_show", "-v", "a", "-t", "e", "-p", "0xffffffff", "-s", "0x0", "-d", "A",
   "-i", "0x" ++ toString npu, "-n", toString (256 * card)]

/-- The `read_dvoq` argv for one (card, NPU) pair. -/
def readDvoq (card npu : Nat) : List String :=
  ["npu_driver_show", "-c", "script read_dvoq_qsm", "-u", "0x" ++ toString npu,
   "-n", toString (256 * card)]

/-- The `oq_debug` argv for one (card, NPU) pair. -/
def oqDebug (card npu : Nat) : List String :=
  ["npu_driver_show", "-c", "script sf_oq_debug_full true", "-u", "0x" ++ toString npu,
   "-n", toString (256 * card)]

/-- The `summ_ctrs` argv for one (card, NPU) pair. -/
def summCtrs (card npu : Nat) : List String :=
  ["npu_driver_show", "-c", "script print_get_counters true", "-u", "0x" ++ toString npu,
   "-n", toString (256 * card)]

/-- The body of `for card in [0,11]`: add the member voq commands to the
loop table, then per NPU instance add the clear command to the run-once
table and the four show commands to the loop table. -/
def addCardCmds (tables : List (String × List String) × List (String × List String))
    (card : Nat) : List (String × List String) × List (String × List String) :=
  let lp := bundlemembers.foldl
    (fun t member => cmdInsert t ("voqs_member" ++ member) (voqIngressStats member)) tables.2
  ([0, 1, 2].foldl
    (fun acc npu =>
      (cmdInsert acc.1 ("clear_command_" ++ toString card ++ "_" ++ toString npu)
          (clrNpuCmd card npu),
        cmdInsert
          (cmdInsert
            (cmdInsert
              (cmdInsert acc.2 ("npu_drops" ++ toString card ++ "_" ++ toString npu)
                (npuStats card npu))
              ("dvoq_check" ++ toString card ++ "_" ++ toString npu) (readDvoq card npu))
            ("oq_debug_full" ++ toString card ++ "_" ++ toString npu) (oqDebug card npu))
          ("summ_ctrs" ++ toString card ++ "_" ++ toString npu) (summCtrs card npu)))
    (tables.1, lp))

/-- Both tables after the module-level construction loops. -/
def finalTables : List (String × List String) × List (String × List String) :=
  [0, 11].foldl addCardCmds (baseRunOnceCmdTable, baseLoopCmdTable)

/-- Table `runOnceCmdTable` as it stands when `__main__` starts. -/
def runOnceCmdTable : List (String × List String) := finalTables.1

/-- Table `loopCmdTable` as it stands when `__main__` starts. -/
def loopCmdTable : List (String × List String) := finalTables.2

/-- Outcome of one iteration of the `while not finished` loop body
(lines 119-122 of the source, before the run-counter test): the updated
mapping, filesystem and events on success, the propagated `TimeoutError`
label, or an uncaught `KeyError`/`ValueError` from `getOutputfile`. -/
inductive RoundOutcome where
  | completed (m : StrMap) (fs : FS) (path : String) (trace : List Event) : RoundOutcome
  | raised (label : String) (trace : List Event) : RoundOutcome
  | keyError (trace : List Event) : RoundOutcome
deriving Repr, DecidableEq

/-- One loop-body iteration over a command table: run the commands,
merge their output into the accumulated mapping, build the snapshot path
(ensuring the output directory) and write the compressed JSON file. -/
def runRound (env : String → List String → CmdBehavior)
    (table : List (String × List String)) (args : Args) (m : StrMap) (fs : FS) :
    RoundOutcome :=
  match runCommands env table with
  | (.error lbl, tr) => .raised lbl tr
  | (.ok out, tr) =>
    let m2 := mapUpdate m out
    match getOutputfile args m2 fs with
    | (none, fs2, ftr) => .keyError (tr ++ ftr)
    | (some path, fs2, ftr) =>
      .completed m2 fs2 path (tr ++ ftr ++ [saveJsonXz m2 path])

/-- Result of running the main loop (or the whole `__main__` body):
`finished` carries the number of completed rounds; `raised` and
`keyError` carry the round index of the abort; `outOfFuel` only signals
that the supplied step budget was insufficient. -/
inductive LoopResult where
  | finished (rounds : Nat) (m : StrMap) (fs : FS) (trace : List Event) : LoopResult
  | raised (label : String) (round : Nat) (trace : List Event) : LoopResult
  | keyError (round : Nat) (trace : List Event) : LoopResult
  | outOfFuel (trace : List Event) : LoopResult
deriving Repr, DecidableEq

/-- Prepend events to a loop result trace. -/
def LoopResult.addTrace (tr : List Event) : LoopResult → LoopResult
  | .finished r m fs tr2 => .finished r m fs (tr ++ tr2)
  | .raised l r tr2 => .raised l r (tr ++ tr2)
  | .keyError r tr2 => .keyError r (tr ++ tr2)
  | .outOfFuel tr2 => .outOfFuel (tr ++ tr2)

/-- The `while not finished` loop, fuel-indexed: each iteration bumps the
run counter, runs a round over the per-round environment, and, unless
`run_counter >= num_runs`, sleeps for the interval and repeats.  The
environment is indexed by the run counter so each round can observe
different command output. -/
def runLoop (env : Nat → String → List String → CmdBehavior)
    (table : List (String × List String)) (args : Args) :
    StrMap → Nat → FS → Nat → LoopResult
  | _, _, _, 0 => .outOfFuel []
  | m, counter, fs, fuel + 1 =>
    let counter2 := counter + 1
    match runRound (env counter2) table args m fs with
    | .raised lbl tr => .raised lbl counter2 tr
    | .keyError tr => .keyError counter2 tr
    | .completed m2 fs2 _path tr =>
      if (counter2 : Int) ≥ args.num_runs then
        .finished counter2 m2 fs2 tr
      else
        (runLoop env table args m2 counter2 fs2 fuel).addTrace
          (tr ++ [Event.sleep args.time_interval])

/-- The `__main__` body: run the run-once table, then enter the main
loop with `run_counter = 0`.  `env 0` gives the behaviour of the
run-once commands; `env k` (k ≥ 1) that of round k. -/
def mainRun (env : Nat → String → List String → CmdBehavior) (args : Args)
    (fs : FS) (fuel : Nat) : LoopResult :=
  match runCommands (env 0) runOnceCmdTable with
  | (.error lbl, tr) => .raised lbl 0 tr
  | (.ok m, tr) =>
    (runLoop env loopCmdTable args m 0 fs fuel).addTrace tr

/-- Lookup after a dict assignment. -/
theorem mapGet?_mapInsert (m : StrMap) (k v c : String) :
    mapGet? (mapInsert m k v) c = if k = c then some v else mapGet? m c := by
  induction m with
  | nil => simp [mapInsert, mapGet?]
  | cons p rest ih =>
    simp only [mapInsert]
    by_cases hp : p.1 = k
    · rw [if_pos hp]
      by_cases hkc : k = c
      · simp [mapGet?, hkc]
      · simp only [mapGet?, if_neg hkc]
        rw [if_neg (by rw [hp]; exact hkc)]
    · rw [if_neg hp]
      by_cases hpc : p.1 = c
      · have hkc : ¬k = c := fun h => hp (by rw [hpc, h])
        simp [mapGet?, hpc, hkc]
      · simp [mapGet?, hpc, ih]

/-- Entries of a dict after assignment come from the assignment or are
untouched entries with a different key. -/
theorem mem_mapInsert (m : StrMap) (k v : String) (x : String × String)
    (hx : x ∈ mapInsert m k v) : x = (k, v) ∨ x ∈ m := by
  induction m with
  | nil => simp only [mapInsert] at hx; left; simpa using hx
  | cons p rest ih =>
    simp only [mapInsert] at hx
    by_cases hp : p.1 = k
    · rw [if_pos hp] at hx
      rcases List.mem_cons.mp hx with h | h
      · left; exact h
      · right; exact List.mem_cons_of_mem _ h
    · rw [if_neg hp] at hx
      rcases List.mem_cons.mp hx with h | h
      · right; exact h ▸ List.mem_cons_self _ _
      · rcases ih h with h2 | h2
        · left; exact h2
        · right; exact List.mem_cons_of_mem _ h2

/-- A key absent from an association list looks up to `none`. -/
theorem mapGet?_eq_none_of_not_mem (m : StrMap) (c : String)
    (h : c ∉ m.map Prod.fst) : mapGet? m c = none := by
  induction m with
  | nil => rfl
  | cons p rest ih =>
    simp only [List.map_cons, List.mem_cons, not_or] at h
    simp only [mapGet?]
    rw [if_neg (fun hh => h.1 hh.symm)]
    exact ih h.2

/-- Update `dict.update` leaves keys alone that the update does not mention. -/
theorem mapGet?_mapUpdate_notmem (out m : StrMap) (c : String)
    (h : mapGet? out c = none) : mapGet? (mapUpdate m out) c = mapGet? m c := by
  induction out generalizing m with
  | nil => rfl
  | cons p rest ih =>
    simp only [mapGet?] at h
    by_cases hp : p.1 = c
    · rw [if_pos hp] at h; cases h
    · rw [if_neg hp] at h
      obtain ⟨k, v⟩ := p
      simp only [mapUpdate]
      rw [ih _ h, mapGet?_mapInsert]
      rw [if_neg (fun hh => hp hh)]

/-- Update `dict.update` overwrites keys that the update mentions (assuming the
update itself binds each key once). -/
theorem mapGet?_mapUpdate_mem (out m : StrMap) (c v : String)
    (hnd : (out.map Prod.fst).Nodup) (h : mapGet? out c = some v) :
    mapGet? (mapUpdate m out) c = some v := by
  induction out generalizing m with
  | nil => cases h
  | cons p rest ih =>
    obtain ⟨k, w⟩ := p
    simp only [List.map_cons, List.nodup_cons] at hnd
    simp only [mapGet?] at h
    by_cases hp : k = c
    · rw [if_pos hp] at h
      injection h with hv
      subst hv; subst hp
      simp only [mapUpdate]
      rw [mapGet?_mapUpdate_notmem _ _ _ (mapGet?_eq_none_of_not_mem _ _ hnd.1)]
      rw [mapGet?_mapInsert, if_pos rfl]
    · rw [if_neg hp] at h
      simp only [mapUpdate]
      exact ih _ hnd.2 h

/-- Unfolding equation for the launch loop on one table entry. -/
theorem launchAll_cons (env : String → List String → CmdBehavior) (cmd : String)
    (argv : List String) (rest : List (String × List String)) :
    launchAll env ((cmd, argv) :: rest) =
      match env cmd argv with
      | .notFound => ((launchAll env rest).1, .launchFailed cmd :: (launchAll env rest).2)
      | .timesOut =>
        ((cmd, .timesOut) :: (launchAll env rest).1, .launch cmd argv :: (launchAll env rest).2)
      | .completes o e =>
        ((cmd, .completes o e) :: (launchAll env rest).1,
          .launch cmd argv :: (launchAll env rest).2) := by
  rw [launchAll]

/-- Launched handles: the table entries whose command exists, each
paired with its join behaviour. -/
theorem launchAll_fst (env : String → List String → CmdBehavior)
    (table : List (String × List String)) :
    (launchAll env table).1 = table.filterMap (fun p =>
      match env p.1 p.2 with
      | .notFound => none
      | .timesOut => some (p.1, ProcResult.timesOut)
      | .completes o e => some (p.1, ProcResult.completes o e)) := by
  induction table with
  | nil => rfl
  | cons p rest ih =>
    obtain ⟨cmd, argv⟩ := p
    rw [launchAll_cons, List.filterMap_cons]
    cases henv : env cmd argv
    case notFound => simp only [ih]
    case timesOut => simp only [ih]
    case completes o e => simp only [ih]

/-- Launch-phase trace: one event per table entry, `launchFailed` for a
missing command, `launch` otherwise. -/
theorem launchAll_snd (env : String → List String → CmdBehavior)
    (table : List (String × List String)) :
    (launchAll env table).2 = table.map (fun p =>
      match env p.1 p.2 with
      | .notFound => Event.launchFailed p.1
      | _ => Event.launch p.1 p.2) := by
  induction table with
  | nil => rfl
  | cons p rest ih =>
    obtain ⟨cmd, argv⟩ := p
    rw [launchAll_cons, List.map_cons]
    cases henv : env cmd argv
    case notFound => simp only [ih]
    case timesOut => simp only [ih]
    case completes o e => simp only [ih]

/-- If every launched process completes, `joinAll` returns the folded-in
stdout mapping and the trace is exactly one fixed-timeout join per
handle, in handle order. -/
theorem joinAll_ok (handles : List (String × ProcResult)) (acc : StrMap)
    (hall : ∀ p ∈ handles, ∃ o e, p.2 = ProcResult.completes o e) :
    joinAll handles acc =
      (.ok (handles.foldl (fun a p =>
          match p.2 with
          | .completes o _ => mapInsert a p.1 o
          | .timesOut => a) acc),
        handles.map (fun p => Event.join p.1 commandTimeout)) := by
  induction handles generalizing acc with
  | nil => rfl
  | cons p rest ih =>
    obtain ⟨c, r⟩ := p
    obtain ⟨o, e, hr⟩ := hall (c, r) (List.mem_cons_self _ _)
    subst hr
    simp only [joinAll, List.foldl_cons, List.map_cons]
    rw [ih _ (fun q hq => hall q (List.mem_cons_of_mem _ hq))]

/-- If some launched process times out, `joinAll` kills the first such
process and raises its label: the trace joins the completing handles
before it, then joins and kills it, and nothing is returned. -/
theorem joinAll_error (pre : List (String × ProcResult)) (c : String)
    (post : List (String × ProcResult)) (acc : StrMap)
    (hpre : ∀ p ∈ pre, ∃ o e, p.2 = ProcResult.completes o e) :
    joinAll (pre ++ (c, ProcResult.timesOut) :: post) acc =
      (.error c,
        pre.map (fun p => Event.join p.1 commandTimeout) ++
          [Event.join c commandTimeout, Event.kill c]) := by
  induction pre generalizing acc with
  | nil => rfl
  | cons p rest ih =>
    obtain ⟨c2, r⟩ := p
    obtain ⟨o, e, hr⟩ := hpre (c2, r) (List.mem_cons_self _ _)
    subst hr
    simp only [List.cons_append, joinAll, List.map_cons, List.append_eq]
    rw [ih _ (fun q hq => hpre q (List.mem_cons_of_mem _ hq))]

/-- The mapping accumulated by the join loop: each completing handle
inserts its stdout under its label. -/
def joinFold (handles : List (String × ProcResult)) (acc : StrMap) : StrMap :=
  handles.foldl (fun a p =>
    match p.2 with
    | .completes o _ => mapInsert a p.1 o
    | .timesOut => a) acc

/-- Keys not bound by any handle fall through the join fold. -/
theorem joinFold_notmem (handles : List (String × ProcResult)) (acc : StrMap) (c : String)
    (h : c ∉ handles.map Prod.fst) :
    mapGet? (joinFold handles acc) c = mapGet? acc c := by
  induction handles generalizing acc with
  | nil => rfl
  | cons p rest ih =>
    obtain ⟨k, r⟩ := p
    simp only [List.map_cons, List.mem_cons, not_or] at h
    cases r
    case timesOut => exact ih _ h.2
    case completes o e =>
      simp only [joinFold, List.foldl_cons]
      rw [show (List.foldl _ (mapInsert acc k o) rest : StrMap) = joinFold rest (mapInsert acc k o) from rfl]
      rw [ih _ h.2, mapGet?_mapInsert, if_neg (fun hh => h.1 hh.symm)]

/-- A handle that completes with stdout `o` ends up bound to `o` after
the join fold (handle labels assumed distinct, as dict keys are). -/
theorem joinFold_mem (handles : List (String × ProcResult)) (acc : StrMap)
    (c o e : String) (hnd : (handles.map Prod.fst).Nodup)
    (hmem : (c, ProcResult.completes o e) ∈ handles) :
    mapGet? (joinFold handles acc) c = some o := by
  induction handles generalizing acc with
  | nil => cases hmem
  | cons p rest ih =>
    obtain ⟨k, r⟩ := p
    simp only [List.map_cons, List.nodup_cons] at hnd
    rcases List.mem_cons.mp hmem with h | h
    · injection h with hk hr
      subst hk
      subst hr
      simp only [joinFold, List.foldl_cons]
      rw [show (List.foldl _ (mapInsert acc c o) rest : StrMap) = joinFold rest (mapInsert acc c o) from rfl]
      rw [joinFold_notmem _ _ _ hnd.1, mapGet?_mapInsert, if_pos rfl]
    · cases r
      case timesOut => exact ih _ hnd.2 h
      case completes o2 e2 =>
        simp only [joinFold, List.foldl_cons]
        rw [show (List.foldl _ (mapInsert acc k o2) rest : StrMap) = joinFold rest (mapInsert acc k o2) from rfl]
        exact ih _ hnd.2 h

/-- The launched handle labels are a sublist of the table labels. -/
theorem launch_keys_sublist (env : String → List String → CmdBehavior)
    (table : List (String × List String)) :
    ((launchAll env table).1.map Prod.fst).Sublist (table.map Prod.fst) := by
  induction table with
  | nil => simp [launchAll]
  | cons p rest ih =>
    obtain ⟨cmd, argv⟩ := p
    rw [launchAll_cons]
    cases henv : env cmd argv
    case notFound => exact ih.cons _
    case timesOut => exact ih.cons₂ _
    case completes o e => exact ih.cons₂ _

/-- A missing command is launched by no handle (table labels distinct). -/
theorem not_mem_launch_keys (env : String → List String → CmdBehavior)
    (table : List (String × List String)) (cmd : String) (argv : List String)
    (hnd : (table.map Prod.fst).Nodup) (hmem : (cmd, argv) ∈ table)
    (hnf : env cmd argv = .notFound) :
    cmd ∉ (launchAll env table).1.map Prod.fst := by
  induction table with
  | nil => cases hmem
  | cons p rest ih =>
    obtain ⟨k, a⟩ := p
    simp only [List.map_cons, List.nodup_cons] at hnd
    rcases List.mem_cons.mp hmem with h | h
    · injection h with hk ha
      subst hk; subst ha
      rw [launchAll_cons, hnf]
      intro hcontra
      exact hnd.1 (List.Sublist.mem hcontra (launch_keys_sublist env rest))
    · have hkc : k ≠ cmd := by
        intro hk
        exact hnd.1 (hk ▸ List.mem_map_of_mem Prod.fst h)
      rw [launchAll_cons]
      cases henv : env k a
      case notFound => exact ih hnd.2 h
      case timesOut =>
        simp only [List.map_cons, List.mem_cons, not_or]
        exact ⟨fun hh => hkc hh.symm, ih hnd.2 h⟩
      case completes o e =>
        simp only [List.map_cons, List.mem_cons, not_or]
        exact ⟨fun hh => hkc hh.symm, ih hnd.2 h⟩

/-- A table entry whose command completes yields a completing handle. -/
theorem mem_handles_of_completes (env : String → List String → CmdBehavior)
    (table : List (String × List String)) (c : String) (a : List String) (o e : String)
    (hmem : (c, a) ∈ table) (henv : env c a = .completes o e) :
    (c, ProcResult.completes o e) ∈ (launchAll env table).1 := by
  rw [launchAll_fst]
  exact List.mem_filterMap.mpr ⟨(c, a), hmem, by rw [henv]⟩

/-- A table entry whose command times out yields a timing-out handle. -/
theorem mem_handles_of_timesOut (env : String → List String → CmdBehavior)
    (table : List (String × List String)) (c : String) (a : List String)
    (hmem : (c, a) ∈ table) (henv : env c a = .timesOut) :
    (c, ProcResult.timesOut) ∈ (launchAll env table).1 := by
  rw [launchAll_fst]
  exact List.mem_filterMap.mpr ⟨(c, a), hmem, by rw [henv]⟩

/-- When no table entry times out, every handle completes. -/
theorem handles_complete (env : String → List String → CmdBehavior)
    (table : List (String × List String))
    (h : ∀ p ∈ table, env p.1 p.2 ≠ .timesOut) :
    ∀ p ∈ (launchAll env table).1, ∃ o e, p.2 = ProcResult.completes o e := by
  intro p hp
  rw [launchAll_fst] at hp
  obtain ⟨q, hq, hpq⟩ := List.mem_filterMap.mp hp
  cases henv : env q.1 q.2
  case notFound => rw [henv] at hpq; cases hpq
  case timesOut => exact absurd henv (h q hq)
  case completes o e =>
    rw [henv] at hpq
    injection hpq with hpq2
    exact ⟨o, e, by rw [← hpq2]⟩

/-- A handle list containing a timeout splits at the first timeout, all
earlier handles completing. -/
theorem exists_first_timeout (handles : List (String × ProcResult))
    (h : ∃ p ∈ handles, p.2 = ProcResult.timesOut) :
    ∃ pre c post, handles = pre ++ (c, ProcResult.timesOut) :: post ∧
      ∀ p ∈ pre, ∃ o e, p.2 = ProcResult.completes o e := by
  induction handles with
  | nil => simp at h
  | cons p rest ih =>
    obtain ⟨k, r⟩ := p
    cases r
    case timesOut =>
      exact ⟨[], k, rest, rfl, by simp⟩
    case completes o e =>
      obtain ⟨q, hq, hq2⟩ := h
      rcases List.mem_cons.mp hq with hh | hh
      · rw [hh] at hq2; cases hq2
      · obtain ⟨pre, c, post, heq, hpre⟩ := ih ⟨q, hh, hq2⟩
        refine ⟨(k, ProcResult.completes o e) :: pre, c, post, by rw [heq]; rfl, ?_⟩
        intro p hp
        rcases List.mem_cons.mp hp with hh2 | hh2
        · exact ⟨o, e, by rw [hh2]⟩
        · exact hpre p hh2

/-- Every event of the join loop is a fixed-timeout join or a kill. -/
theorem joinAll_events (handles : List (String × ProcResult)) (acc : StrMap) :
    ∀ ev ∈ (joinAll handles acc).2,
      (∃ c, ev = Event.join c commandTimeout) ∨ ∃ c, ev = Event.kill c := by
  induction handles generalizing acc with
  | nil => intro ev hev; cases hev
  | cons p rest ih =>
    obtain ⟨k, r⟩ := p
    cases r
    case timesOut =>
      intro ev hev
      simp only [joinAll, List.mem_cons, List.not_mem_nil, or_false] at hev
      rcases hev with h | h
      · exact Or.inl ⟨k, h⟩
      · exact Or.inr ⟨k, h⟩
    case completes o e =>
      intro ev hev
      simp only [joinAll] at hev
      rcases List.mem_cons.mp hev with h | h
      · exact Or.inl ⟨k, h⟩
      · exact ih _ ev h

/-- The trace of a loop result. -/
def LoopResult.trace : LoopResult → List Event
  | .finished _ _ _ tr => tr
  | .raised _ _ tr => tr
  | .keyError _ tr => tr
  | .outOfFuel tr => tr

/-- No event of `runCommands` is a file write. -/
theorem runCommands_no_write (env : String → List String → CmdBehavior)
    (table : List (String × List String)) (p c : String) :
    Event.write p c ∉ (runCommands env table).2 := by
  intro hmem
  simp only [runCommands] at hmem
  rcases List.mem_append.mp hmem with h | h
  · rw [launchAll_snd] at h
    obtain ⟨q, _, hq⟩ := List.mem_map.mp h
    cases henv : env q.1 q.2 <;> rw [henv] at hq <;> cases hq
  · rcases joinAll_events _ _ _ h with ⟨c2, hc⟩ | ⟨c2, hc⟩ <;> cases hc

/-- Unfolding `runCommands` into its two loops. -/
theorem runCommands_eq (env : String → List String → CmdBehavior)
    (table : List (String × List String)) :
    runCommands env table =
      ((joinAll (launchAll env table).1 []).1,
        (launchAll env table).2 ++ (joinAll (launchAll env table).1 []).2) := rfl

/-- A raised `TimeoutError` propagates out of the loop body. -/
theorem runRound_error (env : String → List String → CmdBehavior)
    (table : List (String × List String)) (args : Args) (m : StrMap) (fs : FS)
    (lbl : String) (tr : List Event)
    (h : runCommands env table = (.error lbl, tr)) :
    runRound env table args m fs = .raised lbl tr := by
  simp only [runRound, h]

/-- The directory-ensuring step of `getOutputfile` happens on every path
through it. -/
theorem getOutputfile_snd (args : Args) (m : StrMap) (fs : FS) :
    (getOutputfile args m fs).2 = ensureDir args.output_dir fs := rfl

/-- Characterization of the snapshot path when the needed keys are
present and the timestamp parses. -/
theorem buildPath_some (args : Args) (m : StrMap) (tsText host : String) (ts : Int)
    (h1 : mapGet? m "timestamp" = some tsText)
    (h2 : mapGet? m "etcHostname" = some host)
    (h3 : parsePyInt tsText = some ts) :
    buildPath args m =
      some (args.output_dir ++ "/" ++
        (args.leader ++ pyStrip host ++ "_cmds_" ++ formatTimestamp ts ++ ".json.xz")) := by
  simp only [buildPath, h1, h2, h3, Option.some_bind, Option.map_some']

/-- The configured directory exists after `ensureDir`. -/
theorem ensureDir_mem (dir : String) (fs : FS) :
    dir ∈ (ensureDir dir fs).1.paths := by
  unfold ensureDir
  split
  case isTrue h => exact List.mem_of_elem_eq_true h
  case isFalse h => simp

/-- Creation step `ensureDir` leaves an existing directory (and the whole filesystem)
unchanged, and creates a missing one with a single mkdir. -/
theorem ensureDir_spec (dir : String) (fs : FS) :
    (fs.paths.contains dir = true → ensureDir dir fs = (fs, [])) ∧
    (fs.paths.contains dir = false →
      ensureDir dir fs = (⟨fs.paths ++ [dir]⟩, [Event.mkdirEvt dir])) := by
  constructor <;> intro h <;>
    simp only [ensureDir, h, if_true, if_false, Bool.false_eq_true, reduceIte]

/-- Inversion of a completed loop-body iteration: the commands returned a
mapping, the snapshot mapping is the dict update, the filesystem advanced
by the directory-ensuring step, and the trace is commands, then directory
events, then exactly the one file write. -/
theorem runRound_completed_inv (env : String → List String → CmdBehavior)
    (table : List (String × List String)) (args : Args) (m : StrMap) (fs : FS)
    (m2 : StrMap) (fs2 : FS) (path : String) (tr : List Event)
    (h : runRound env table args m fs = .completed m2 fs2 path tr) :
    ∃ out ctr, runCommands env table = (.ok out, ctr) ∧
      m2 = mapUpdate m out ∧
      fs2 = (ensureDir args.output_dir fs).1 ∧
      buildPath args m2 = some path ∧
      tr = ctr ++ (ensureDir args.output_dir fs).2 ++
        [Event.write path (xzCompress (jsonDump m2))] := by
  unfold runRound at h
  rcases hrc : runCommands env table with ⟨res, ctr⟩
  rw [hrc] at h
  cases res
  case error lbl => cases h
  case ok out =>
    simp only [getOutputfile] at h
    cases hbp : buildPath args (mapUpdate m out)
    case none => rw [hbp] at h; cases h
    case some path2 =>
      rw [hbp] at h
      simp only [RoundOutcome.completed.injEq] at h
      obtain ⟨hm2, hfs2, hpath, htr⟩ := h
      subst hm2; subst hpath
      exact ⟨out, ctr, rfl, rfl, hfs2.symm, hbp, by rw [← htr, saveJsonXz]⟩

/-- Conversely, when the commands succeed and the path builds, the round
completes. -/
theorem runRound_completed (env : String → List String → CmdBehavior)
    (table : List (String × List String)) (args : Args) (m : StrMap) (fs : FS)
    (out : StrMap) (ctr : List Event) (path : String)
    (hrc : runCommands env table = (.ok out, ctr))
    (hbp : buildPath args (mapUpdate m out) = some path) :
    runRound env table args m fs =
      .completed (mapUpdate m out) (ensureDir args.output_dir fs).1 path
        (ctr ++ (ensureDir args.output_dir fs).2 ++
          [Event.write path (xzCompress (jsonDump (mapUpdate m out)))]) := by
  simp only [runRound, hrc, getOutputfile, hbp, saveJsonXz]

/-- Keys after a dict assignment: the assigned key or an old key. -/
theorem keys_mapInsert (m : StrMap) (k v : String) (x : String)
    (hx : x ∈ (mapInsert m k v).map Prod.fst) : x = k ∨ x ∈ m.map Prod.fst := by
  obtain ⟨p, hp, hpx⟩ := List.mem_map.mp hx
  rcases mem_mapInsert m k v p hp with h | h
  · left; rw [← hpx, h]
  · right; exact hpx ▸ List.mem_map_of_mem Prod.fst h

/-- Dict assignment preserves distinctness of keys. -/
theorem nodup_mapInsert (m : StrMap) (k v : String)
    (hnd : (m.map Prod.fst).Nodup) : ((mapInsert m k v).map Prod.fst).Nodup := by
  induction m with
  | nil => simp [mapInsert]
  | cons p rest ih =>
    simp only [List.map_cons, List.nodup_cons] at hnd
    simp only [mapInsert]
    by_cases hp : p.1 = k
    · rw [if_pos hp]
      simp only [List.map_cons, List.nodup_cons]
      exact ⟨hp ▸ hnd.1, hnd.2⟩
    · rw [if_neg hp]
      simp only [List.map_cons, List.nodup_cons]
      refine ⟨?_, ih hnd.2⟩
      intro hcontra
      rcases keys_mapInsert _ _ _ _ hcontra with h | h
      · exact hp h
      · exact hnd.1 h

/-- The join fold preserves distinctness of the accumulated keys. -/
theorem nodup_joinFold (handles : List (String × ProcResult)) (acc : StrMap)
    (hnd : (acc.map Prod.fst).Nodup) : ((joinFold handles acc).map Prod.fst).Nodup := by
  induction handles generalizing acc with
  | nil => exact hnd
  | cons p rest ih =>
    obtain ⟨k, r⟩ := p
    cases r
    case timesOut => exact ih _ hnd
    case completes o e =>
      simp only [joinFold, List.foldl_cons]
      exact ih _ (nodup_mapInsert _ _ _ hnd)

/-- Every entry accumulated by the join fold is an old entry or the
stdout of a completing handle. -/
theorem mem_joinFold (handles : List (String × ProcResult)) (acc : StrMap)
    (x : String × String) (hx : x ∈ joinFold handles acc) :
    x ∈ acc ∨ ∃ e, (x.1, ProcResult.completes x.2 e) ∈ handles := by
  induction handles generalizing acc with
  | nil => exact Or.inl hx
  | cons p rest ih =>
    obtain ⟨k, r⟩ := p
    cases r
    case timesOut =>
      rcases ih _ hx with h | ⟨e, h⟩
      · exact Or.inl h
      · exact Or.inr ⟨e, List.mem_cons_of_mem _ h⟩
    case completes o e =>
      simp only [joinFold, List.foldl_cons] at hx
      rcases ih _ hx with h | ⟨e2, h⟩
      · rcases mem_mapInsert _ _ _ _ h with h2 | h2
        · right
          refine ⟨e, ?_⟩
          rw [h2]
          exact List.mem_cons_self _ _
        · exact Or.inl h2
      · exact Or.inr ⟨e2, List.mem_cons_of_mem _ h⟩

/-- Source of a handle: some table entry launched it, with the matching
behaviour. -/
theorem handle_src (env : String → List String → CmdBehavior)
    (table : List (String × List String)) (c : String) (r : ProcResult)
    (h : (c, r) ∈ (launchAll env table).1) :
    ∃ a, (c, a) ∈ table ∧
      ((r = ProcResult.timesOut ∧ env c a = .timesOut) ∨
        ∃ o e, r = ProcResult.completes o e ∧ env c a = .completes o e) := by
  rw [launchAll_fst] at h
  obtain ⟨q, hq, hpq⟩ := List.mem_filterMap.mp h
  cases henv : env q.1 q.2 <;> rw [henv] at hpq
  case notFound => cases hpq
  case timesOut =>
    injection hpq with hpq
    injection hpq with h1 h2
    exact ⟨q.2, by rw [← h1]; simpa using hq, Or.inl ⟨h2.symm, by rw [← h1]; exact henv⟩⟩
  case completes o e =>
    injection hpq with hpq
    injection hpq with h1 h2
    exact ⟨q.2, by rw [← h1]; simpa using hq,
      Or.inr ⟨o, e, h2.symm, by rw [← h1]; exact henv⟩⟩

/-- A label joined by the join loop labels one of the handles. -/
theorem joinAll_join_mem (handles : List (String × ProcResult)) (acc : StrMap)
    (c : String) (t : Nat) (h : Event.join c t ∈ (joinAll handles acc).2) :
    c ∈ handles.map Prod.fst := by
  induction handles generalizing acc with
  | nil => cases h
  | cons p rest ih =>
    obtain ⟨k, r⟩ := p
    cases r
    case timesOut =>
      simp only [joinAll, List.mem_cons, List.not_mem_nil, or_false] at h
      rcases h with h | h
      · injection h with h1 h2; simp [h1]
      · simp at h
    case completes o e =>
      simp only [joinAll, List.mem_cons] at h
      rcases h with h | h
      · injection h with h1 h2; simp [h1]
      · simp only [List.map_cons, List.mem_cons]
        exact Or.inr (ih _ h)

/-- Each handle is joined at most once (handle labels distinct). -/
theorem joinAll_join_count (handles : List (String × ProcResult)) (acc : StrMap)
    (c : String) (hnd : (handles.map Prod.fst).Nodup) :
    (joinAll handles acc).2.count (Event.join c commandTimeout) ≤ 1 := by
  induction handles generalizing acc with
  | nil => simp [joinAll]
  | cons p rest ih =>
    obtain ⟨k, r⟩ := p
    simp only [List.map_cons, List.nodup_cons] at hnd
    cases r
    case timesOut =>
      simp only [joinAll]
      by_cases hk : Event.join k commandTimeout = Event.join c commandTimeout
      · rw [List.count_cons, List.count_cons]
        simp [hk]
      · rw [List.count_cons, List.count_cons]
        simp only [List.count_nil]
        have : (Event.kill k == Event.join c commandTimeout) = false := by simp
        simp [hk, this]
    case completes o e =>
      simp only [joinAll, List.count_cons]
      by_cases hk : k = c
      · subst hk
        have hnotin : Event.join k commandTimeout ∉ (joinAll rest (mapInsert acc k o)).2 := by
          intro hcontra
          exact hnd.1 (joinAll_join_mem _ _ _ _ hcontra)
        rw [List.count_eq_zero_of_not_mem hnotin]
        simp
      · have := ih (mapInsert acc k o) hnd.2
        have hne : (Event.join k commandTimeout == Event.join c commandTimeout) = false := by
          simp [hk]
        rw [hne]
        simpa using this

/-- A successful join loop kills nothing. -/
theorem joinAll_ok_no_kill (handles : List (String × ProcResult)) (acc : StrMap)
    (m : StrMap) (tr : List Event) (h : joinAll handles acc = (.ok m, tr)) :
    ∀ c, Event.kill c ∉ tr := by
  induction handles generalizing acc m tr with
  | nil =>
    simp only [joinAll, Prod.mk.injEq] at h
    intro c
    rw [← h.2]
    exact List.not_mem_nil _
  | cons p rest ih =>
    obtain ⟨k, r⟩ := p
    cases r
    case timesOut => simp [joinAll] at h
    case completes o e =>
      rcases hjr : joinAll rest (mapInsert acc k o) with ⟨res2, tr2⟩
      simp only [joinAll, hjr, Prod.mk.injEq] at h
      obtain ⟨h1, h2⟩ := h
      cases res2
      case error => cases h1
      case ok m2 =>
        intro c hc
        rw [← h2] at hc
        rcases List.mem_cons.mp hc with hx | hx
        · cases hx
        · exact ih _ _ _ hjr c hx

/-- A timed-out join loop kills exactly the raised handle, once. -/
theorem joinAll_error_kills (handles : List (String × ProcResult)) (acc : StrMap)
    (lbl : String) (tr : List Event) (h : joinAll handles acc = (.error lbl, tr)) :
    tr.count (Event.kill lbl) = 1 ∧ ∀ c, c ≠ lbl → Event.kill c ∉ tr := by
  induction handles generalizing acc tr with
  | nil => simp [joinAll] at h
  | cons p rest ih =>
    obtain ⟨k, r⟩ := p
    cases r
    case timesOut =>
      simp only [joinAll, Prod.mk.injEq, Except.error.injEq] at h
      obtain ⟨h1, h2⟩ := h
      subst h1
      rw [← h2]
      constructor
      · simp [List.count_cons]
      · intro c hc hmem
        simp only [List.mem_cons, List.not_mem_nil, or_false] at hmem
        rcases hmem with hm | hm
        · cases hm
        · injection hm with hm2; exact hc hm2
    case completes o e =>
      rcases hjr : joinAll rest (mapInsert acc k o) with ⟨res2, tr2⟩
      simp only [joinAll, hjr, Prod.mk.injEq] at h
      obtain ⟨h1, h2⟩ := h
      cases res2
      case ok => cases h1
      case error lbl2 =>
        injection h1 with h1b
        subst h1b
        obtain ⟨hc1, hc2⟩ := ih _ _ hjr
        rw [← h2]
        constructor
        · rw [List.count_cons, hc1]
          simp
        · intro c hc hmem
          rcases List.mem_cons.mp hmem with hm | hm
          · cases hm
          · exact hc2 c hc hm

/-- C5: for every round output mapping, `getOutputfile` returns the
path `output_dir + "/" + leader + stripped hostname + "_cmds_" +
timestamp + ".json.xz"`, with the timestamp formatted (`%y%m%d-%H%M%S`)
from the sampled clock value stored under the `timestamp` key — the path
is a function of the stored mapping alone, not of any clock read at
write time. -/
theorem claim_C5 (args : Args) (m : StrMap) (fs : FS)
    (tsText host : String) (ts : Int)
    (h1 : mapGet? m "timestamp" = some tsText)
    (h2 : mapGet? m "etcHostname" = some host)
    (h3 : parsePyInt tsText = some ts) :
    (getOutputfile args m fs).1 =
      some (args.output_dir ++ "/" ++
        (args.leader ++ pyStrip host ++ "_cmds_" ++ formatTimestamp ts ++ ".json.xz")) := by
  show buildPath args m = _
  exact buildPath_some args m tsText host ts h1 h2 h3

/-- Witness for C5 at a concrete mapping: leader `pre`, hostname
` host1` with surrounding whitespace, epoch second 0. -/
theorem claim_C5_witness :
    mapGet? [("timestamp", "0\n"), ("etcHostname", " host1\n")] "timestamp" = some "0\n" ∧
    parsePyInt "0\n" = some 0 ∧
    (getOutputfile ⟨30, 1, "/tmp/out", "pre"⟩
        [("timestamp", "0\n"), ("etcHostname", " host1\n")] ⟨[]⟩).1 =
      some ("/tmp/out" ++ "/" ++
        ("pre" ++ pyStrip " host1\n" ++ "_cmds_" ++ formatTimestamp 0 ++ ".json.xz")) ∧
    "/tmp/out" ++ "/" ++
        ("pre" ++ pyStrip " host1\n" ++ "_cmds_" ++ formatTimestamp 0 ++ ".json.xz") =
      "/tmp/out/prehost1_cmds_700101-000000.json.xz" :=
  ⟨rfl, rfl,
    claim_C5 ⟨30, 1, "/tmp/out", "pre"⟩ [("timestamp", "0\n"), ("etcHostname", " host1\n")]
      ⟨[]⟩ "0\n" " host1\n" 0 rfl rfl rfl,
    by rfl⟩

/-- C9 (implicit): before returning a snapshot path, `getOutputfile`
creates the configured output directory (single-level `os.mkdir`) if it
does not already exist, and leaves an existing directory (and the whole
filesystem state) unchanged; in a completed round the directory events
precede the file write, so every write is preceded by ensuring the
directory exists. -/
theorem claim_C9 (dir : String) (fs : FS)
    (env : String → List String → CmdBehavior)
    (table : List (String × List String)) (args : Args) (m : StrMap) :
    (fs.paths.contains dir = false →
      ensureDir dir fs = (⟨fs.paths ++ [dir]⟩, [Event.mkdirEvt dir])) ∧
    (fs.paths.contains dir = true → ensureDir dir fs = (fs, [])) ∧
    (∀ mp, (getOutputfile args mp fs).2.1 = (ensureDir args.output_dir fs).1 ∧
      args.output_dir ∈ (getOutputfile args mp fs).2.1.paths) ∧
    (∀ m2 fs2 path tr, runRound env table args m fs = .completed m2 fs2 path tr →
      args.output_dir ∈ fs2.paths ∧
      ∃ ctr, tr = ctr ++ (ensureDir args.output_dir fs).2 ++
          [Event.write path (xzCompress (jsonDump m2))] ∧
        (∀ p c, Event.write p c ∉ ctr) ∧
        (∀ p c, Event.write p c ∉ (ensureDir args.output_dir fs).2)) := by
  refine ⟨(ensureDir_spec dir fs).2, (ensureDir_spec dir fs).1, ?_, ?_⟩
  · intro mp
    exact ⟨rfl, ensureDir_mem _ _⟩
  · intro m2 fs2 path tr h
    obtain ⟨out, ctr, hrc, _, hfs2, _, htr⟩ := runRound_completed_inv _ _ _ _ _ _ _ _ _ h
    refine ⟨hfs2 ▸ ensureDir_mem _ _, ctr, htr, ?_, ?_⟩
    · intro p c
      have hw := runCommands_no_write env table p c
      rw [hrc] at hw
      simpa using hw
    · intro p c hmem
      unfold ensureDir at hmem
      split at hmem
      · cases hmem
      · simp at hmem

/-- Witness for C9: the directory is created when absent and untouched
when present, at a concrete filesystem. -/
theorem claim_C9_witness :
    (FS.mk []).paths.contains "/tmp/out" = false ∧
    ensureDir "/tmp/out" ⟨[]⟩ = (⟨[] ++ ["/tmp/out"]⟩, [Event.mkdirEvt "/tmp/out"]) ∧
    (FS.mk ["/tmp/out"]).paths.contains "/tmp/out" = true ∧
    ensureDir "/tmp/out" ⟨["/tmp/out"]⟩ = (⟨["/tmp/out"]⟩, []) :=
  ⟨rfl,
    (claim_C9 "/tmp/out" ⟨[]⟩ (fun _ _ => .notFound) [] ⟨30, 1, "/tmp/out", ""⟩ []).1 rfl,
    rfl,
    (claim_C9 "/tmp/out" ⟨["/tmp/out"]⟩ (fun _ _ => .notFound) [] ⟨30, 1, "/tmp/out", ""⟩
      []).2.1 rfl⟩

/-- C2: if joining any launched command would exceed the fixed
per-command timeout, `runCommands` kills that process (the first such in
join order), raises a `TimeoutError` that aborts the whole round — the
loop iteration yields `raised`, no mapping is produced, and no snapshot
file is written in that round. -/
theorem claim_C2 (envR : Nat → String → List String → CmdBehavior)
    (table : List (String × List String)) (args : Args) (m : StrMap)
    (counter : Nat) (fs : FS) (fuel : Nat)
    (hto : ∃ p ∈ table, envR (counter + 1) p.1 p.2 = .timesOut) :
    ∃ lbl tr, runLoop envR table args m counter fs (fuel + 1) =
        .raised lbl (counter + 1) tr ∧
      (∃ argv, (lbl, argv) ∈ table ∧ envR (counter + 1) lbl argv = .timesOut) ∧
      Event.kill lbl ∈ tr ∧
      (∀ p c, Event.write p c ∉ tr) ∧
      (runCommands (envR (counter + 1)) table).1 = .error lbl := by
  obtain ⟨p, hp, hpe⟩ := hto
  set env := envR (counter + 1) with henvdef
  have hhandle : (p.1, ProcResult.timesOut) ∈ (launchAll env table).1 :=
    mem_handles_of_timesOut env table p.1 p.2 (by simpa using hp) hpe
  obtain ⟨pre, c, post, hsplit, hpre⟩ :=
    exists_first_timeout (launchAll env table).1 ⟨_, hhandle, rfl⟩
  have hj := joinAll_error pre c post [] hpre
  have hrc : runCommands env table =
      (.error c, (launchAll env table).2 ++
        (pre.map (fun p => Event.join p.1 commandTimeout) ++
          [Event.join c commandTimeout, Event.kill c])) := by
    rw [runCommands_eq, hsplit, hj]
  have hsrc : ∃ argv, (c, argv) ∈ table ∧ env c argv = .timesOut := by
    have hcmem : (c, ProcResult.timesOut) ∈ (launchAll env table).1 := by
      rw [hsplit]
      exact List.mem_append_right _ (List.mem_cons_self _ _)
    obtain ⟨a, ha, hcase⟩ := handle_src env table c ProcResult.timesOut hcmem
    rcases hcase with ⟨_, h2⟩ | ⟨o, e, h2, _⟩
    · exact ⟨a, ha, h2⟩
    · cases h2
  refine ⟨c, (launchAll env table).2 ++
      (pre.map (fun p => Event.join p.1 commandTimeout) ++
        [Event.join c commandTimeout, Event.kill c]), ?_, hsrc, ?_, ?_, by rw [hrc]⟩
  · simp only [runLoop]
    rw [runRound_error env table args m fs c _ hrc]
  · exact List.mem_append_right _ (List.mem_append_right _ (by simp))
  · intro pth cnt hmem
    have := runCommands_no_write env table pth cnt
    rw [hrc] at this
    exact this (by simpa using hmem)

/-- A two-command table in which the command labelled `bad` hangs. -/
def tableTimeoutW : List (String × List String) := [("good", ["g"]), ("bad", ["b"])]

/-- Host behaviour for the C2 witness: `bad` times out, all else
completes. -/
def envTimeoutW : Nat → String → List String → CmdBehavior :=
  fun _ lbl _ => if lbl = "bad" then .timesOut else .completes "ok" ""

/-- Witness for C2 at a concrete table and behaviour. -/
theorem claim_C2_witness :
    (∃ p ∈ tableTimeoutW, envTimeoutW 1 p.1 p.2 = .timesOut) ∧
    ∃ lbl tr, runLoop envTimeoutW tableTimeoutW defaultArgs [] 0 ⟨[]⟩ 1 =
        .raised lbl 1 tr ∧
      (∃ argv, (lbl, argv) ∈ tableTimeoutW ∧ envTimeoutW 1 lbl argv = .timesOut) ∧
      Event.kill lbl ∈ tr ∧
      (∀ p c, Event.write p c ∉ tr) ∧
      (runCommands (envTimeoutW 1) tableTimeoutW).1 = .error lbl :=
  ⟨⟨("bad", ["b"]), by simp [tableTimeoutW], by rfl⟩,
    claim_C2 envTimeoutW tableTimeoutW defaultArgs [] 0 ⟨[]⟩ 0
      ⟨("bad", ["b"]), by simp [tableTimeoutW], by rfl⟩⟩

/-- Distinct dict keys determine their values. -/
theorem key_val_unique (table : List (String × List String))
    (hnd : (table.map Prod.fst).Nodup) (k : String) (a1 a2 : List String)
    (h1 : (k, a1) ∈ table) (h2 : (k, a2) ∈ table) : a1 = a2 := by
  induction table with
  | nil => cases h1
  | cons q rest ih =>
    simp only [List.map_cons, List.nodup_cons] at hnd
    rcases List.mem_cons.mp h1 with ha | ha <;> rcases List.mem_cons.mp h2 with hb | hb
    · exact congrArg Prod.snd (ha.trans hb.symm)
    · exfalso
      apply hnd.1
      have hq1 : q.1 = k := by rw [← ha]
      rw [hq1]
      exact List.mem_map_of_mem Prod.fst hb
    · exfalso
      apply hnd.1
      have hq1 : q.1 = k := by rw [← hb]
      rw [hq1]
      exact List.mem_map_of_mem Prod.fst ha
    · exact ih hnd.2 ha hb

/-- C4: a command whose binary is missing (`FileNotFoundError`) is
logged and skipped: it is absent from the returned mapping, while every
other command of the table is still launched, joined with the fixed
timeout, and included in the mapping under its label with its stdout. -/
theorem claim_C4 (env : String → List String → CmdBehavior)
    (table : List (String × List String)) (cmd : String) (argv : List String)
    (hnd : (table.map Prod.fst).Nodup)
    (hmem : (cmd, argv) ∈ table)
    (hnf : env cmd argv = .notFound)
    (hother : ∀ p ∈ table, p.1 ≠ cmd → ∃ o e, env p.1 p.2 = .completes o e) :
    ∃ m, (runCommands env table).1 = .ok m ∧
      Event.launchFailed cmd ∈ (runCommands env table).2 ∧
      mapGet? m cmd = none ∧
      ∀ p ∈ table, p.1 ≠ cmd → ∃ o e, env p.1 p.2 = .completes o e ∧
        Event.launch p.1 p.2 ∈ (runCommands env table).2 ∧
        Event.join p.1 commandTimeout ∈ (runCommands env table).2 ∧
        mapGet? m p.1 = some o := by
  have hkeyuniq : ∀ p ∈ table, p.1 = cmd → p.2 = argv := by
    intro p hp hpc
    apply key_val_unique table hnd cmd p.2 argv _ hmem
    rw [← hpc]
    simpa using hp
  have hall : ∀ q ∈ (launchAll env table).1, ∃ o e, q.2 = ProcResult.completes o e := by
    apply handles_complete
    intro p hp
    by_cases hpc : p.1 = cmd
    · have := hkeyuniq p hp hpc
      have hp2 : env p.1 p.2 = .notFound := by rw [hpc, this]; exact hnf
      rw [hp2]
      intro hcontra
      cases hcontra
    · obtain ⟨o, e, he⟩ := hother p hp hpc
      rw [he]
      intro hcontra
      cases hcontra
  have hjoin := joinAll_ok (launchAll env table).1 [] hall
  have hhnd : ((launchAll env table).1.map Prod.fst).Nodup :=
    (launch_keys_sublist env table).nodup hnd
  refine ⟨joinFold (launchAll env table).1 [], ?_, ?_, ?_, ?_⟩
  · rw [runCommands_eq, hjoin]
    rfl
  · rw [runCommands_eq]
    simp only [launchAll_snd]
    apply List.mem_append_left
    apply List.mem_map.mpr
    exact ⟨(cmd, argv), hmem, by rw [hnf]⟩
  · rw [joinFold_notmem _ _ _ (not_mem_launch_keys env table cmd argv hnd hmem hnf)]
    rfl
  · intro p hp hpc
    obtain ⟨o, e, he⟩ := hother p hp hpc
    refine ⟨o, e, he, ?_, ?_, ?_⟩
    · rw [runCommands_eq]
      simp only [launchAll_snd]
      apply List.mem_append_left
      apply List.mem_map.mpr
      refine ⟨p, hp, ?_⟩
      rw [he]
    · rw [runCommands_eq, hjoin]
      apply List.mem_append_right
      apply List.mem_map.mpr
      exact ⟨(p.1, ProcResult.completes o e),
        mem_handles_of_completes env table p.1 p.2 o e (by simpa using hp) he, rfl⟩
    · exact joinFold_mem _ _ _ _ e hhnd
        (mem_handles_of_completes env table p.1 p.2 o e (by simpa using hp) he)

/-- A two-command table whose command labelled `gone` has no binary. -/
def tableNFW : List (String × List String) :=
  [("etcHostname", ["cat", "/etc/hostname"]), ("gone", ["nope"])]

/-- Host behaviour for the C4 witness: `gone` is missing, all else
completes. -/
def envNFW : String → List String → CmdBehavior :=
  fun lbl _ => if lbl = "gone" then .notFound else .completes "host\n" ""

/-- Witness for C4 at a concrete table and behaviour. -/
theorem claim_C4_witness :
    (tableNFW.map Prod.fst).Nodup ∧
    ("gone", ["nope"]) ∈ tableNFW ∧
    envNFW "gone" ["nope"] = .notFound ∧
    (∀ p ∈ tableNFW, p.1 ≠ "gone" → ∃ o e, envNFW p.1 p.2 = .completes o e) ∧
    ∃ m, (runCommands envNFW tableNFW).1 = .ok m ∧
      Event.launchFailed "gone" ∈ (runCommands envNFW tableNFW).2 ∧
      mapGet? m "gone" = none ∧
      ∀ p ∈ tableNFW, p.1 ≠ "gone" → ∃ o e, envNFW p.1 p.2 = .completes o e ∧
        Event.launch p.1 p.2 ∈ (runCommands envNFW tableNFW).2 ∧
        Event.join p.1 commandTimeout ∈ (runCommands envNFW tableNFW).2 ∧
        mapGet? m p.1 = some o := by
  have hother : ∀ p ∈ tableNFW, p.1 ≠ "gone" → ∃ o e, envNFW p.1 p.2 = .completes o e := by
    intro p hp hne
    simp only [tableNFW, List.mem_cons, List.not_mem_nil, or_false] at hp
    rcases hp with rfl | rfl
    · exact ⟨"host\n", "", rfl⟩
    · exact absurd rfl hne
  exact ⟨by decide, by simp [tableNFW], rfl, hother,
    claim_C4 envNFW tableNFW "gone" ["nope"] (by decide) (by simp [tableNFW]) rfl hother⟩

/-- Extracting the joined labels from a pure join trace. -/
theorem filterMap_join_labels (l : List (String × ProcResult)) :
    (l.map (fun p => Event.join p.1 commandTimeout)).filterMap (fun ev =>
        match ev with
        | Event.join c _ => some c
        | _ => none) = l.map Prod.fst := by
  induction l with
  | nil => rfl
  | cons p rest ih => simp [ih]

/-- C6: within one `runCommands` call the trace decomposes into a launch
phase followed by a join phase: the launch phase is exactly one
launch/launchFailed event per table entry in table order (every
subprocess is launched before any is joined), the join phase holds only
join and kill events, every join uses the same fixed timeout, and the
joined labels are an order-preserving prefix of the launched handles. -/
theorem claim_C6 (env : String → List String → CmdBehavior)
    (table : List (String × List String)) :
    ∃ launchTr joinTr,
      (runCommands env table).2 = launchTr ++ joinTr ∧
      launchTr = table.map (fun p =>
        match env p.1 p.2 with
        | .notFound => Event.launchFailed p.1
        | _ => Event.launch p.1 p.2) ∧
      (∀ ev ∈ launchTr, (∃ c a, ev = Event.launch c a) ∨ ∃ c, ev = Event.launchFailed c) ∧
      (∀ ev ∈ joinTr, (∃ c, ev = Event.join c commandTimeout) ∨ ∃ c, ev = Event.kill c) ∧
      ∃ k, joinTr.filterMap (fun ev =>
          match ev with
          | Event.join c _ => some c
          | _ => none) =
        ((launchAll env table).1.map Prod.fst).take k := by
  refine ⟨(launchAll env table).2, (joinAll (launchAll env table).1 []).2, ?_,
    launchAll_snd env table, ?_, joinAll_events _ _, ?_⟩
  · rw [runCommands_eq]
  · intro ev hev
    rw [launchAll_snd] at hev
    obtain ⟨p, _, hp⟩ := List.mem_map.mp hev
    cases henv : env p.1 p.2 <;> rw [henv] at hp
    · exact Or.inr ⟨p.1, hp.symm⟩
    · exact Or.inl ⟨p.1, p.2, hp.symm⟩
    · exact Or.inl ⟨p.1, p.2, hp.symm⟩
  · by_cases hto : ∃ p ∈ (launchAll env table).1, p.2 = ProcResult.timesOut
    · obtain ⟨pre, c, post, hsplit, hpre⟩ := exists_first_timeout _ hto
      refine ⟨pre.length + 1, ?_⟩
      rw [hsplit, joinAll_error pre c post [] hpre]
      simp only [List.filterMap_append, List.map_append, List.map_cons]
      rw [filterMap_join_labels]
      have h2 : List.take (pre.length + 1)
          (List.map Prod.fst pre ++ c :: List.map Prod.fst post) =
          List.map Prod.fst pre ++ [c] := by
        rw [List.take_append_eq_append_take]
        simp
      rw [h2]
      rfl
    · push_neg at hto
      have hall : ∀ p ∈ (launchAll env table).1, ∃ o e, p.2 = ProcResult.completes o e := by
        intro p hp
        cases hpr : p.2
        case timesOut => exact absurd hpr (hto p hp)
        case completes o e => exact ⟨o, e, rfl⟩
      refine ⟨(launchAll env table).1.length, ?_⟩
      rw [joinAll_ok _ _ hall]
      simp only
      rw [filterMap_join_labels]
      simp

/-- Events of the launch phase come one from each table entry. -/
theorem mem_launchTr (env : String → List String → CmdBehavior)
    (table : List (String × List String)) (ev : Event)
    (h : ev ∈ (launchAll env table).2) :
    ∃ p ∈ table, ev = Event.launchFailed p.1 ∨ ev = Event.launch p.1 p.2 := by
  rw [launchAll_snd] at h
  obtain ⟨p, hp, hpe⟩ := List.mem_map.mp h
  cases henv : env p.1 p.2 <;> rw [henv] at hpe
  · exact ⟨p, hp, Or.inl hpe.symm⟩
  · exact ⟨p, hp, Or.inr hpe.symm⟩
  · exact ⟨p, hp, Or.inr hpe.symm⟩

/-- No launch event for a label outside the table. -/
theorem count_launch_zero (env : String → List String → CmdBehavior)
    (table : List (String × List String)) (c : String) (a : List String)
    (h : c ∉ table.map Prod.fst) :
    (launchAll env table).2.count (Event.launch c a) = 0 := by
  apply List.count_eq_zero_of_not_mem
  intro hmem
  obtain ⟨p, hp, hcase⟩ := mem_launchTr env table _ hmem
  rcases hcase with hc | hc
  · cases hc
  · injection hc with h1 h2
    exact h (h1 ▸ List.mem_map_of_mem Prod.fst hp)

/-- Each command is launched at most once (table labels distinct). -/
theorem count_launch_le_one (env : String → List String → CmdBehavior)
    (table : List (String × List String)) (c : String) (a : List String)
    (hnd : (table.map Prod.fst).Nodup) :
    (launchAll env table).2.count (Event.launch c a) ≤ 1 := by
  induction table with
  | nil => simp [launchAll]
  | cons q rest ih =>
    simp only [List.map_cons, List.nodup_cons] at hnd
    rw [launchAll_cons]
    cases henv : env q.1 q.2
    case notFound =>
      simp only [List.count_cons]
      have : (Event.launchFailed q.1 == Event.launch c a) = false := by simp
      rw [this]
      simpa using ih hnd.2
    case timesOut =>
      simp only [List.count_cons]
      by_cases hq : Event.launch q.1 q.2 = Event.launch c a
      · injection hq with h1 h2
        rw [count_launch_zero env rest c a (h1 ▸ hnd.1)]
        split <;> simp
      · have : (Event.launch q.1 q.2 == Event.launch c a) = false := by
          simp only [beq_eq_false_iff_ne, ne_eq]
          exact hq
        rw [this]
        simpa using ih hnd.2
    case completes o e =>
      simp only [List.count_cons]
      by_cases hq : Event.launch q.1 q.2 = Event.launch c a
      · injection hq with h1 h2
        rw [count_launch_zero env rest c a (h1 ▸ hnd.1)]
        split <;> simp
      · have : (Event.launch q.1 q.2 == Event.launch c a) = false := by
          simp only [beq_eq_false_iff_ne, ne_eq]
          exact hq
        rw [this]
        simpa using ih hnd.2

/-- C8: within one `runCommands` call no command is launched more than
once and none is joined more than once (no retries); a successful call
kills nothing, and a timed-out call kills exactly the one process whose
join timed out — no other cancellation. -/
theorem claim_C8 (env : String → List String → CmdBehavior)
    (table : List (String × List String))
    (hnd : (table.map Prod.fst).Nodup) :
    (∀ c a, (runCommands env table).2.count (Event.launch c a) ≤ 1) ∧
    (∀ c, (runCommands env table).2.count (Event.join c commandTimeout) ≤ 1) ∧
    (∀ m, (runCommands env table).1 = .ok m →
      ∀ c, Event.kill c ∉ (runCommands env table).2) ∧
    (∀ lbl, (runCommands env table).1 = .error lbl →
      (runCommands env table).2.count (Event.kill lbl) = 1 ∧
      ∀ c, c ≠ lbl → Event.kill c ∉ (runCommands env table).2) := by
  have hhnd : ((launchAll env table).1.map Prod.fst).Nodup :=
    (launch_keys_sublist env table).nodup hnd
  rcases hja : joinAll (launchAll env table).1 [] with ⟨res, jtr⟩
  have htr : (runCommands env table).2 = (launchAll env table).2 ++ jtr := by
    rw [runCommands_eq, hja]
  have hres : (runCommands env table).1 = res := by
    rw [runCommands_eq, hja]
  have hjev : ∀ ev ∈ jtr, (∃ c, ev = Event.join c commandTimeout) ∨ ∃ c, ev = Event.kill c := by
    have := joinAll_events (launchAll env table).1 []
    rw [hja] at this
    exact this
  refine ⟨?_, ?_, ?_, ?_⟩
  · intro c a
    rw [htr, List.count_append]
    have hjz : jtr.count (Event.launch c a) = 0 := by
      apply List.count_eq_zero_of_not_mem
      intro hmem
      rcases hjev _ hmem with ⟨c2, hc⟩ | ⟨c2, hc⟩ <;> cases hc
    rw [hjz]
    simpa using count_launch_le_one env table c a hnd
  · intro c
    rw [htr, List.count_append]
    have hlz : (launchAll env table).2.count (Event.join c commandTimeout) = 0 := by
      apply List.count_eq_zero_of_not_mem
      intro hmem
      obtain ⟨p, _, hcase⟩ := mem_launchTr env table _ hmem
      rcases hcase with hc | hc <;> cases hc
    rw [hlz]
    have := joinAll_join_count (launchAll env table).1 [] c hhnd
    rw [hja] at this
    simpa using this
  · intro m hm c
    rw [htr]
    intro hmem
    rcases List.mem_append.mp hmem with h | h
    · obtain ⟨p, _, hcase⟩ := mem_launchTr env table _ h
      rcases hcase with hc | hc <;> cases hc
    · rw [hres] at hm
      subst hm
      exact joinAll_ok_no_kill _ _ _ _ hja c h
  · intro lbl hl
    rw [hres] at hl
    subst hl
    obtain ⟨hc1, hc2⟩ := joinAll_error_kills _ _ _ _ hja
    constructor
    · rw [htr, List.count_append, hc1]
      have hlz : (launchAll env table).2.count (Event.kill lbl) = 0 := by
        apply List.count_eq_zero_of_not_mem
        intro hmem
        obtain ⟨p, _, hcase⟩ := mem_launchTr env table _ hmem
        rcases hcase with hc | hc <;> cases hc
      rw [hlz]
    · intro c hc
      rw [htr]
      intro hmem
      rcases List.mem_append.mp hmem with h | h
      · obtain ⟨p, _, hcase⟩ := mem_launchTr env table _ h
        rcases hcase with h2 | h2 <;> cases h2
      · exact hc2 c hc h

/-- Witness for C8 at a concrete table with distinct labels. -/
theorem claim_C8_witness :
    (tableTimeoutW.map Prod.fst).Nodup ∧
    ((∀ c a, (runCommands (envTimeoutW 1) tableTimeoutW).2.count (Event.launch c a) ≤ 1) ∧
      (∀ c, (runCommands (envTimeoutW 1) tableTimeoutW).2.count
          (Event.join c commandTimeout) ≤ 1) ∧
      (∀ m, (runCommands (envTimeoutW 1) tableTimeoutW).1 = .ok m →
        ∀ c, Event.kill c ∉ (runCommands (envTimeoutW 1) tableTimeoutW).2) ∧
      (∀ lbl, (runCommands (envTimeoutW 1) tableTimeoutW).1 = .error lbl →
        (runCommands (envTimeoutW 1) tableTimeoutW).2.count (Event.kill lbl) = 1 ∧
        ∀ c, c ≠ lbl → Event.kill c ∉ (runCommands (envTimeoutW 1) tableTimeoutW).2)) :=
  ⟨by decide, claim_C8 (envTimeoutW 1) tableTimeoutW (by decide)⟩

/-- A successful join loop returns exactly the folded-in stdout map. -/
theorem joinAll_ok_inv (handles : List (String × ProcResult)) (acc : StrMap)
    (m : StrMap) (tr : List Event) (h : joinAll handles acc = (.ok m, tr)) :
    m = joinFold handles acc := by
  induction handles generalizing acc m tr with
  | nil =>
    simp only [joinAll, Prod.mk.injEq, Except.ok.injEq] at h
    exact h.1.symm
  | cons p rest ih =>
    obtain ⟨k, r⟩ := p
    cases r
    case timesOut => simp [joinAll] at h
    case completes o e =>
      rcases hjr : joinAll rest (mapInsert acc k o) with ⟨res2, tr2⟩
      simp only [joinAll, hjr, Prod.mk.injEq] at h
      cases res2
      case error => cases h.1
      case ok m2 =>
        injection h.1 with h1
        subst h1
        exact ih _ _ _ hjr

/-- C7: the datum serialized each round is the flat label-to-stdout
mapping: every entry of the returned mapping is the stdout of a
completing table command (its stderr is never stored), and a completed
round writes exactly that mapping serialized as JSON and then
compressed. -/
theorem claim_C7 (env : String → List String → CmdBehavior)
    (table : List (String × List String)) (args : Args) (m : StrMap) (fs : FS) :
    (∀ out ctr, runCommands env table = (.ok out, ctr) →
      ∀ x ∈ out, ∃ a e2, (x.1, a) ∈ table ∧ env x.1 a = .completes x.2 e2) ∧
    (∀ m2 fs2 path tr, runRound env table args m fs = .completed m2 fs2 path tr →
      ∃ ctr, tr = ctr ++ (ensureDir args.output_dir fs).2 ++
        [Event.write path (xzCompress (jsonDump m2))]) := by
  constructor
  · intro out ctr hrc x hx
    have hja : joinAll (launchAll env table).1 [] =
        ((joinAll (launchAll env table).1 []).1, (joinAll (launchAll env table).1 []).2) := rfl
    have h1 : (joinAll (launchAll env table).1 []).1 = .ok out := by
      have := congrArg Prod.fst hrc
      rw [runCommands_eq] at this
      exact this
    have hout : out = joinFold (launchAll env table).1 [] := by
      apply joinAll_ok_inv (launchAll env table).1 [] out (joinAll (launchAll env table).1 []).2
      rw [← h1]
    rw [hout] at hx
    rcases mem_joinFold _ _ _ hx with h | ⟨e2, h⟩
    · cases h
    · obtain ⟨a, ha, hcase⟩ := handle_src env table x.1 _ h
      rcases hcase with ⟨hcontra, _⟩ | ⟨o2, e3, heq, henv⟩
      · cases hcontra
      · injection heq with ho2 he3
        exact ⟨a, e3, ha, by rw [← ho2] at henv; exact henv⟩
  · intro m2 fs2 path tr h
    obtain ⟨out, ctr, _, _, _, _, htr⟩ := runRound_completed_inv _ _ _ _ _ _ _ _ _ h
    exact ⟨ctr, htr⟩

/-- The loop command table of the round-level witnesses: a clock read and
a hostname read. -/
def tableRoundW : List (String × List String) :=
  [("timestamp", ["date", "+%s"]), ("etcHostname", ["cat", "/etc/hostname"])]

/-- Host behaviour for the round-level witnesses: both commands complete;
the hostname command also emits stderr text, which must never be stored. -/
def envRoundW : Nat → String → List String → CmdBehavior :=
  fun _ lbl _ =>
    if lbl = "timestamp" then .completes "1700000000\n" ""
    else .completes "rtr1\n" "ignored-stderr"

/-- Witness for C7 at a concrete completed round. -/
theorem claim_C7_witness :
    ∃ out ctr, runCommands (envRoundW 1) tableRoundW = (.ok out, ctr) ∧
      (∀ x ∈ out, ∃ a e2, (x.1, a) ∈ tableRoundW ∧
        envRoundW 1 x.1 a = .completes x.2 e2) ∧
      ∃ m2 fs2 path tr,
        runRound (envRoundW 1) tableRoundW defaultArgs [] ⟨[]⟩ = .completed m2 fs2 path tr ∧
        ∃ ctr2, tr = ctr2 ++ (ensureDir defaultArgs.output_dir ⟨[]⟩).2 ++
          [Event.write path (xzCompress (jsonDump m2))] :=
  ⟨_, _, rfl,
    (claim_C7 (envRoundW 1) tableRoundW defaultArgs [] ⟨[]⟩).1 _ _ rfl,
    _, _, _, _, rfl,
    (claim_C7 (envRoundW 1) tableRoundW defaultArgs [] ⟨[]⟩).2 _ _ _ _ rfl⟩

/-- Is the event a file write? -/
def isWriteEvent : Event → Bool
  | .write _ _ => true
  | _ => false

/-- C3: every completed sampling round produces exactly one file write,
whose content is the xz-compressed JSON serialization of the round
mapping; that content decompresses back to the JSON text, the JSON text
reads back to exactly the mapping, and the mapping holds the stdout of
every successfully executed command under the label of that command. -/
theorem claim_C3 (env : String → List String → CmdBehavior)
    (table : List (String × List String)) (args : Args) (m : StrMap) (fs : FS)
    (m2 : StrMap) (fs2 : FS) (path : String) (tr : List Event)
    (hnd : (table.map Prod.fst).Nodup)
    (hr : runRound env table args m fs = .completed m2 fs2 path tr) :
    tr.countP (fun e => isWriteEvent e) = 1 ∧
    Event.write path (xzCompress (jsonDump m2)) ∈ tr ∧
    xzDecompress (xzCompress (jsonDump m2)) = some (jsonDump m2) ∧
    jsonRead (jsonDump m2) = some m2 ∧
    (∀ c a o e, (c, a) ∈ table → env c a = .completes o e → mapGet? m2 c = some o) := by
  obtain ⟨out, ctr, hrc, hm2, _, _, htr⟩ := runRound_completed_inv _ _ _ _ _ _ _ _ _ hr
  have hctr0 : ctr.countP (fun e => isWriteEvent e) = 0 := by
    apply List.countP_eq_zero.mpr
    intro e he
    cases e <;> simp only [isWriteEvent, Bool.false_eq_true, not_false_eq_true] <;> try trivial
    case write p c =>
      exfalso
      have hw := runCommands_no_write env table p c
      rw [hrc] at hw
      exact hw (by simpa using he)
  have hdtr0 : (ensureDir args.output_dir fs).2.countP (fun e => isWriteEvent e) = 0 := by
    unfold ensureDir
    split <;> simp [isWriteEvent]
  refine ⟨?_, ?_, xzDecompress_xzCompress _, jsonRead_jsonDump _, ?_⟩
  · rw [htr, List.countP_append, List.countP_append, hctr0, hdtr0]
    simp [isWriteEvent]
  · rw [htr]
    apply List.mem_append_right
    simp
  · intro c a o e hca henv
    have h1 : (joinAll (launchAll env table).1 []).1 = .ok out := by
      have := congrArg Prod.fst hrc
      rw [runCommands_eq] at this
      exact this
    have hout : out = joinFold (launchAll env table).1 [] := by
      apply joinAll_ok_inv (launchAll env table).1 [] out (joinAll (launchAll env table).1 []).2
      rw [← h1]
    have hhnd : ((launchAll env table).1.map Prod.fst).Nodup :=
      (launch_keys_sublist env table).nodup hnd
    have hget : mapGet? out c = some o := by
      rw [hout]
      exact joinFold_mem _ _ _ _ e hhnd (mem_handles_of_completes env table c a o e hca henv)
    have houtnd : (out.map Prod.fst).Nodup := by
      rw [hout]
      exact nodup_joinFold _ _ (by simp)
    rw [hm2]
    exact mapGet?_mapUpdate_mem out m c o houtnd hget

/-- Witness for C3 at a concrete completed round. -/
theorem claim_C3_witness :
    (tableRoundW.map Prod.fst).Nodup ∧
    ∃ m2 fs2 path tr,
      runRound (envRoundW 1) tableRoundW defaultArgs [] ⟨[]⟩ = .completed m2 fs2 path tr ∧
      (tr.countP (fun e => isWriteEvent e) = 1 ∧
        Event.write path (xzCompress (jsonDump m2)) ∈ tr ∧
        xzDecompress (xzCompress (jsonDump m2)) = some (jsonDump m2) ∧
        jsonRead (jsonDump m2) = some m2 ∧
        (∀ c a o e, (c, a) ∈ tableRoundW → envRoundW 1 c a = .completes o e →
          mapGet? m2 c = some o)) :=
  ⟨by decide, _, _, _, _, rfl,
    claim_C3 (envRoundW 1) tableRoundW defaultArgs [] ⟨[]⟩ _ _ _ _ (by decide) rfl⟩

/-- Arguments with `--num_runs 0`, documented as "run forever". -/
def argsZeroW : Args := ⟨30, 0, "/var/xr/disk1/envSnaps", ""⟩

/-- C1, behaviour the code actually has at `num_runs = 0`: the loop test
`run_counter >= args.num_runs` is already true after the first round
(1 ≥ 0), so one completed round finishes the whole loop — it does not
run forever as the claim (and the CLI help text) state.  For
`num_runs = n > 0` the loop does run exactly n rounds; this theorem
pins the n = 0 divergence. -/
theorem claim_C1 (envR : Nat → String → List String → CmdBehavior)
    (table : List (String × List String)) (args : Args) (m : StrMap)
    (counter : Nat) (fs : FS) (fuel : Nat) (m2 : StrMap) (fs2 : FS)
    (path : String) (tr : List Event)
    (hn : args.num_runs = 0)
    (hr : runRound (envR (counter + 1)) table args m fs = .completed m2 fs2 path tr) :
    runLoop envR table args m counter fs (fuel + 1) = .finished (counter + 1) m2 fs2 tr := by
  simp only [runLoop, hr]
  rw [if_pos]
  rw [hn]
  omega

/-- Witness for C1: with `--num_runs 0` and commands that all succeed,
the loop terminates as `finished` after exactly one round even with fuel
to spare. -/
theorem claim_C1_witness :
    argsZeroW.num_runs = 0 ∧
    ∃ m2 fs2 path tr,
      runRound (envRoundW 1) tableRoundW argsZeroW [] ⟨[]⟩ = .completed m2 fs2 path tr ∧
      runLoop envRoundW tableRoundW argsZeroW [] 0 ⟨[]⟩ 5 = .finished 1 m2 fs2 tr :=
  ⟨rfl, _, _, _, _, rfl,
    claim_C1 envRoundW tableRoundW argsZeroW [] 0 ⟨[]⟩ 4 _ _ _ _ rfl rfl⟩

/-- Unfolding of one loop iteration. -/
theorem runLoop_succ (envR : Nat → String → List String → CmdBehavior)
    (table : List (String × List String)) (args : Args) (m : StrMap)
    (counter : Nat) (fs : FS) (fuel : Nat) :
    runLoop envR table args m counter fs (fuel + 1) =
      match runRound (envR (counter + 1)) table args m fs with
      | .raised lbl tr => .raised lbl (counter + 1) tr
      | .keyError tr => .keyError (counter + 1) tr
      | .completed m2 fs2 _path tr =>
        if ((counter + 1 : Nat) : Int) ≥ args.num_runs then .finished (counter + 1) m2 fs2 tr
        else (runLoop envR table args m2 (counter + 1) fs2 fuel).addTrace
          (tr ++ [Event.sleep args.time_interval]) := by
  rw [runLoop]

/-- Traces prepend through `addTrace`. -/
theorem trace_addTrace (r : LoopResult) (t : List Event) :
    (r.addTrace t).trace = t ++ r.trace := by
  cases r <;> rfl

/-- Inversion of a raised loop-body iteration. -/
theorem runRound_raised_inv (env : String → List String → CmdBehavior)
    (table : List (String × List String)) (args : Args) (m : StrMap) (fs : FS)
    (lbl : String) (tr : List Event)
    (h : runRound env table args m fs = .raised lbl tr) :
    runCommands env table = (.error lbl, tr) := by
  unfold runRound at h
  rcases hrc : runCommands env table with ⟨res, ctr⟩
  rw [hrc] at h
  cases res
  case error lbl2 =>
    simp only [RoundOutcome.raised.injEq] at h
    rw [h.1, h.2]
  case ok out =>
    simp only [getOutputfile] at h
    cases hbp : buildPath args (mapUpdate m out) <;> rw [hbp] at h <;> cases h

/-- Inversion of a key-error loop-body iteration. -/
theorem runRound_keyError_inv (env : String → List String → CmdBehavior)
    (table : List (String × List String)) (args : Args) (m : StrMap) (fs : FS)
    (tr : List Event)
    (h : runRound env table args m fs = .keyError tr) :
    ∃ out ctr, runCommands env table = (.ok out, ctr) ∧
      tr = ctr ++ (ensureDir args.output_dir fs).2 := by
  unfold runRound at h
  rcases hrc : runCommands env table with ⟨res, ctr⟩
  rw [hrc] at h
  cases res
  case error lbl2 => cases h
  case ok out =>
    simp only [getOutputfile] at h
    cases hbp : buildPath args (mapUpdate m out) <;> rw [hbp] at h
    · simp only [RoundOutcome.keyError.injEq] at h
      exact ⟨out, ctr, rfl, h.symm⟩
    · cases h

/-- A launch event of `runCommands` names a table entry. -/
theorem launch_mem_runCommands (env : String → List String → CmdBehavior)
    (table : List (String × List String)) (c : String) (a : List String)
    (h : Event.launch c a ∈ (runCommands env table).2) : (c, a) ∈ table := by
  rw [runCommands_eq] at h
  rcases List.mem_append.mp h with h2 | h2
  · obtain ⟨p, hp, hcase⟩ := mem_launchTr env table _ h2
    rcases hcase with hc | hc
    · cases hc
    · injection hc with h1 h3
      rw [h1, h3]
      simpa using hp
  · rcases joinAll_events _ _ _ h2 with ⟨c2, hc⟩ | ⟨c2, hc⟩ <;> cases hc

/-- The directory-ensuring step only makes directories. -/
theorem ensureDir_events (dir : String) (fs : FS) (ev : Event)
    (h : ev ∈ (ensureDir dir fs).2) : ev = Event.mkdirEvt dir := by
  unfold ensureDir at h
  split at h
  · cases h
  · simpa using h

/-- Launch events inside the main loop only ever name commands of the
loop table (the run-once table is consulted only before the loop). -/
theorem loop_launch_mem (envR : Nat → String → List String → CmdBehavior)
    (table : List (String × List String)) (args : Args) :
    ∀ fuel m counter fs c a,
      Event.launch c a ∈ (runLoop envR table args m counter fs fuel).trace →
      (c, a) ∈ table := by
  intro fuel
  induction fuel with
  | zero => intro m counter fs c a h; cases h
  | succ fuel ih =>
    intro m counter fs c a h
    rw [runLoop_succ] at h
    split at h
    case _ lbl tr heq =>
      simp only [LoopResult.trace] at h
      have hrc := runRound_raised_inv _ _ _ _ _ _ _ heq
      have hw := launch_mem_runCommands (envR (counter + 1)) table c a
      rw [hrc] at hw
      exact hw (by simpa using h)
    case _ tr heq =>
      simp only [LoopResult.trace] at h
      obtain ⟨out, ctr, hrc, htr⟩ := runRound_keyError_inv _ _ _ _ _ _ heq
      rw [htr] at h
      rcases List.mem_append.mp h with h2 | h2
      · have hw := launch_mem_runCommands (envR (counter + 1)) table c a
        rw [hrc] at hw
        exact hw (by simpa using h2)
      · cases ensureDir_events _ _ _ h2
    case _ m2 fs2 path tr heq =>
      obtain ⟨out, ctr, hrc, _, _, _, htr⟩ := runRound_completed_inv _ _ _ _ _ _ _ _ _ heq
      have hinround : Event.launch c a ∈ tr → (c, a) ∈ table := by
        intro h2
        rw [htr] at h2
        rcases List.mem_append.mp h2 with h3 | h3
        · rcases List.mem_append.mp h3 with h4 | h4
          · have hw := launch_mem_runCommands (envR (counter + 1)) table c a
            rw [hrc] at hw
            exact hw (by simpa using h4)
          · cases ensureDir_events _ _ _ h4
        · simp only [List.mem_singleton] at h3
          cases h3
      by_cases hge : ((counter + 1 : Nat) : Int) ≥ args.num_runs
      · rw [if_pos hge] at h
        simp only [LoopResult.trace] at h
        exact hinround h
      · rw [if_neg hge, trace_addTrace] at h
        rcases List.mem_append.mp h with h2 | h2
        · rcases List.mem_append.mp h2 with h3 | h3
          · exact hinround h3
          · simp only [List.mem_singleton] at h3
            cases h3
        · exact ih _ _ _ _ _ h2

/-- Labels outside the table never appear in the returned mapping. -/
theorem runCommands_out_get_none (env : String → List String → CmdBehavior)
    (table : List (String × List String)) (out : StrMap) (ctr : List Event)
    (label : String) (hrc : runCommands env table = (.ok out, ctr))
    (h : label ∉ table.map Prod.fst) : mapGet? out label = none := by
  have h1 : (joinAll (launchAll env table).1 []).1 = .ok out := by
    have := congrArg Prod.fst hrc
    rw [runCommands_eq] at this
    exact this
  have hout : out = joinFold (launchAll env table).1 [] := by
    apply joinAll_ok_inv (launchAll env table).1 [] out (joinAll (launchAll env table).1 []).2
    rw [← h1]
  rw [hout]
  rw [joinFold_notmem]
  · rfl
  · intro hcontra
    exact h ((launch_keys_sublist env table).mem hcontra)

/-- Every snapshot written by the loop is the compressed JSON of a
mapping that preserves, under every label the loop table does not bind,
the value the mapping had when the loop began. -/
theorem loop_write_inv (envR : Nat → String → List String → CmdBehavior)
    (table : List (String × List String)) (args : Args) :
    ∀ fuel m counter fs path content,
      Event.write path content ∈ (runLoop envR table args m counter fs fuel).trace →
      ∃ m2, content = xzCompress (jsonDump m2) ∧
        ∀ label, label ∉ table.map Prod.fst → mapGet? m2 label = mapGet? m label := by
  intro fuel
  induction fuel with
  | zero => intro m counter fs path content h; cases h
  | succ fuel ih =>
    intro m counter fs path content h
    rw [runLoop_succ] at h
    split at h
    case _ lbl tr heq =>
      simp only [LoopResult.trace] at h
      have hrc := runRound_raised_inv _ _ _ _ _ _ _ heq
      have hw := runCommands_no_write (envR (counter + 1)) table path content
      rw [hrc] at hw
      exact absurd (by simpa using h) hw
    case _ tr heq =>
      simp only [LoopResult.trace] at h
      obtain ⟨out, ctr, hrc, htr⟩ := runRound_keyError_inv _ _ _ _ _ _ heq
      rw [htr] at h
      rcases List.mem_append.mp h with h2 | h2
      · have hw := runCommands_no_write (envR (counter + 1)) table path content
        rw [hrc] at hw
        exact absurd (by simpa using h2) hw
      · cases ensureDir_events _ _ _ h2
    case _ m2 fs2 path2 tr heq =>
      obtain ⟨out, ctr, hrc, hm2, _, _, htr⟩ := runRound_completed_inv _ _ _ _ _ _ _ _ _ heq
      have hround : ∀ label, label ∉ table.map Prod.fst →
          mapGet? m2 label = mapGet? m label := by
        intro label hl
        rw [hm2]
        exact mapGet?_mapUpdate_notmem out m label
          (runCommands_out_get_none _ _ _ _ _ hrc hl)
      have hinround : Event.write path content ∈ tr →
          ∃ mm, content = xzCompress (jsonDump mm) ∧
            ∀ label, label ∉ table.map Prod.fst →
              mapGet? mm label = mapGet? m label := by
        intro h2
        rw [htr] at h2
        rcases List.mem_append.mp h2 with h3 | h3
        · rcases List.mem_append.mp h3 with h4 | h4
          · have hw := runCommands_no_write (envR (counter + 1)) table path content
            rw [hrc] at hw
            exact absurd (by simpa using h4) hw
          · cases ensureDir_events _ _ _ h4
        · simp only [List.mem_singleton] at h3
          injection h3 with _ hcontent
          exact ⟨m2, hcontent, hround⟩
      by_cases hge : ((counter + 1 : Nat) : Int) ≥ args.num_runs
      · rw [if_pos hge] at h
        simp only [LoopResult.trace] at h
        exact hinround h
      · rw [if_neg hge, trace_addTrace] at h
        rcases List.mem_append.mp h with h2 | h2
        · rcases List.mem_append.mp h2 with h3 | h3
          · exact hinround h3
          · simp only [List.mem_singleton] at h3
            cases h3
        · obtain ⟨m3, hcontent, hlab⟩ := ih _ _ _ _ _ h2
          exact ⟨m3, hcontent, fun label hl => (hlab label hl).trans (hround label hl)⟩

/-- C10 (implicit): the run-once commands execute exactly once, before
the first round — the whole run is the run-once trace followed by the
loop, and inside the loop only loop-table commands are ever launched;
their captured outputs are carried into every snapshot through the
accumulating mapping (labels the loop table does not bind keep the value
they had when the loop began); and each round merges the loop outputs on
top, so a loop output under some label overwrites the accumulated value
of that label in the snapshot. -/
theorem claim_C10 (envR : Nat → String → List String → CmdBehavior)
    (args : Args) (fs : FS) (fuel : Nat) :
    (∀ m0 tr0, runCommands (envR 0) runOnceCmdTable = (.ok m0, tr0) →
      mainRun envR args fs fuel = (runLoop envR loopCmdTable args m0 0 fs fuel).addTrace tr0) ∧
    (∀ table m counter fs2 fuel2 c a,
      Event.launch c a ∈ (runLoop envR table args m counter fs2 fuel2).trace →
      (c, a) ∈ table) ∧
    (∀ table m counter fs2 fuel2 path content,
      Event.write path content ∈ (runLoop envR table args m counter fs2 fuel2).trace →
      ∃ m2, content = xzCompress (jsonDump m2) ∧
        ∀ label, label ∉ table.map Prod.fst → mapGet? m2 label = mapGet? m label) ∧
    (∀ env2 table m fs2 m2 fs3 path tr out ctr,
      runCommands env2 table = ((.ok out : Except String StrMap), ctr) →
      runRound env2 table args m fs2 = .completed m2 fs3 path tr →
      m2 = mapUpdate m out ∧
      ∀ label v, (out.map Prod.fst).Nodup → mapGet? out label = some v →
        mapGet? m2 label = some v) := by
  refine ⟨?_, ?_, ?_, ?_⟩
  · intro m0 tr0 h
    simp only [mainRun, h]
  · intro table m counter fs2 fuel2 c a h
    exact loop_launch_mem envR table args fuel2 m counter fs2 c a h
  · intro table m counter fs2 fuel2 path content h
    exact loop_write_inv envR table args fuel2 m counter fs2 path content h
  · intro env2 table m fs2 m2 fs3 path tr out ctr hrc hrr
    obtain ⟨out2, ctr2, hrc2, hm2, _, _, _⟩ := runRound_completed_inv _ _ _ _ _ _ _ _ _ hrr
    have hpair := hrc2.symm.trans hrc
    simp only [Prod.mk.injEq, Except.ok.injEq] at hpair
    rw [hpair.1] at hm2
    refine ⟨hm2, ?_⟩
    intro label v hnd hv
    rw [hm2]
    exact mapGet?_mapUpdate_mem out m label v hnd hv

/-- Witness for C10: a concrete full run (run-once phase then one round)
decomposes as stated, and a concrete completed round is the dict update
of the accumulated mapping. -/
theorem claim_C10_witness :
    (∃ m0 tr0, runCommands (envRoundW 0) runOnceCmdTable = (.ok m0, tr0) ∧
      mainRun envRoundW defaultArgs ⟨[]⟩ 1 =
        (runLoop envRoundW loopCmdTable defaultArgs m0 0 ⟨[]⟩ 1).addTrace tr0) ∧
    (∃ out ctr m2 fs3 path tr,
      runCommands (envRoundW 1) tableRoundW = ((.ok out : Except String StrMap), ctr) ∧
      runRound (envRoundW 1) tableRoundW defaultArgs [] ⟨[]⟩ = .completed m2 fs3 path tr ∧
      m2 = mapUpdate [] out ∧
      ∀ label v, (out.map Prod.fst).Nodup → mapGet? out label = some v →
        mapGet? m2 label = some v) :=
  ⟨⟨_, _, rfl, (claim_C10 envRoundW defaultArgs ⟨[]⟩ 1).1 _ _ rfl⟩,
    ⟨_, _, _, _, _, _, rfl, rfl,
      (claim_C10 envRoundW defaultArgs ⟨[]⟩ 1).2.2.2 (envRoundW 1) tableRoundW [] ⟨[]⟩
        _ _ _ _ _ _ rfl rfl⟩⟩

/-- Witness for C6 at a concrete table and behaviour (the theorem itself
has no hypotheses; this instantiates it). -/
theorem claim_C6_witness :
    ∃ launchTr joinTr,
      (runCommands (envTimeoutW 1) tableTimeoutW).2 = launchTr ++ joinTr ∧
      launchTr = tableTimeoutW.map (fun p =>
        match envTimeoutW 1 p.1 p.2 with
        | .notFound => Event.launchFailed p.1
        | _ => Event.launch p.1 p.2) ∧
      (∀ ev ∈ launchTr, (∃ c a, ev = Event.launch c a) ∨ ∃ c, ev = Event.launchFailed c) ∧
      (∀ ev ∈ joinTr, (∃ c, ev = Event.join c commandTimeout) ∨ ∃ c, ev = Event.kill c) ∧
      ∃ k, joinTr.filterMap (fun ev =>
          match ev with
          | Event.join c _ => some c
          | _ => none) =
        ((launchAll (envTimeoutW 1) tableTimeoutW).1.map Prod.fst).take k :=
  claim_C6 (envTimeoutW 1) tableTimeoutW

end DropScript
